import Mathlib

/-!
Verification of the aoc-2024 repository's day-16 maze search
(best-cost search over position-and-direction states) and the day-11
stone-blinking recurrence.  Rust sources embedded: src/bin/day_16.rs,
src/directions.rs, src/bin/day_11.rs.

Machine integers: the Rust code uses usize and i32; costs stay far below
any overflow boundary in all properties considered here, so they are
modelled as Nat (the i32 costs start at 0, only grow by +1 or +1000,
and are only ever added and compared, so they stay nonnegative and far
from overflow) and Nat (indices).  Rust panics are modelled as
an explicit panic outcome; Rust BinaryHeap (a min-heap on cost under the
reversed Ord of day_16's State) is modelled as a cost-sorted list whose
head is popped, a deterministic refinement of pop-some-minimum.
-/

set_option maxHeartbeats 4000000

deriving instance DecidableEq for Except

namespace Aoc

namespace Day16

/-- Tiles of the maze grid, from day_16.rs. -/
inductive Tile
  | Wall
  | Empty
  | Start
  | End
deriving DecidableEq, Repr

/-- The eight compass directions of src/directions.rs (declaration order
matters: it fixes the value of the Rust cast to usize). -/
inductive Direction
  | Up
  | Down
  | Left
  | Right
  | UpLeft
  | UpRight
  | DownLeft
  | DownRight
deriving DecidableEq, Repr

namespace Direction

/-- From Direction for (isize, isize): the (dy, dx) movement delta. -/
def delta : Direction → Int × Int
  | Up => (-1, 0)
  | Down => (1, 0)
  | Left => (0, -1)
  | Right => (0, 1)
  | UpLeft => (-1, -1)
  | UpRight => (-1, 1)
  | DownLeft => (1, -1)
  | DownRight => (1, 1)

/-- The Rust cast direction as usize (declaration order). -/
def idx : Direction → Nat
  | Up => 0
  | Down => 1
  | Left => 2
  | Right => 3
  | UpLeft => 4
  | UpRight => 5
  | DownLeft => 6
  | DownRight => 7

/-- Direction::turn_clockwise; the Rust function panics on the four
diagonal directions, modelled as none. -/
def turn_clockwise : Direction → Option Direction
  | Up => some Right
  | Right => some Down
  | Down => some Left
  | Left => some Up
  | _ => none

/-- Direction::turn_counterclockwise; panics on diagonals, modelled as
none. -/
def turn_counterclockwise : Direction → Option Direction
  | Up => some Left
  | Left => some Down
  | Down => some Right
  | Right => some Up
  | _ => none

/-- The four cardinal directions (the ones the day-16 search uses). -/
def isCardinal : Direction → Bool
  | Up => true
  | Down => true
  | Left => true
  | Right => true
  | _ => false

end Direction

/-- Grid position: (row, column), the Point of usize of day_16.rs. -/
abbrev Pos := Nat × Nat

/-- The Maze struct of day_16.rs. -/
structure Maze where
  grid : List (List Tile)
  start : Pos
  «end» : Pos
deriving DecidableEq, Repr

/-- Accumulator step of Maze::from_str for one character at (i, j):
translate the character and update start and end; an invalid character
panics (none). -/
def parseChar (c : Char) : Option Tile :=
  if c = '#' then some Tile.Wall
  else if c = '.' then some Tile.Empty
  else if c = 'S' then some Tile.Start
  else if c = 'E' then some Tile.End
  else none

/-- Inner loop of Maze::from_str over the characters of line i, carrying
the column index j and the current start and end cells. -/
def fromStrRow (i : Nat) : Nat → List Char → Pos → Pos →
    Option (List Tile × Pos × Pos)
  | _, [], s, e => some ([], s, e)
  | j, c :: cs, s, e =>
    match parseChar c with
    | none => none
    | some t =>
      let s' := if c = 'S' then (i, j) else s
      let e' := if c = 'E' then (i, j) else e
      match fromStrRow i (j + 1) cs s' e' with
      | none => none
      | some (row, s'', e'') => some (t :: row, s'', e'')

/-- Outer loop of Maze::from_str over the enumerated lines. -/
def fromStrGo : Nat → List (List Char) → Pos → Pos →
    Option (List (List Tile) × Pos × Pos)
  | _, [], s, e => some ([], s, e)
  | i, l :: ls, s, e =>
    match fromStrRow i 0 l s e with
    | none => none
    | some (row, s', e') =>
      match fromStrGo (i + 1) ls s' e' with
      | none => none
      | some (rows, s'', e'') => some (row :: rows, s'', e'')

/-- Maze::from_str.  The input is the list of lines (each a list of
characters, as produced by str::lines).  The Rust function has error
type (), never builds an Err, and panics on an invalid character; the
outer Option models the panic. -/
def Maze.from_str (lines : List (List Char)) : Option (Except Unit Maze) :=
  match fromStrGo 0 lines (0, 0) (0, 0) with
  | none => none
  | some (grid, s, e) => some (Except.ok { grid := grid, start := s, «end» := e })

/-- Number of rows of the grid (self.grid.len()). -/
def Maze.rows (m : Maze) : Nat := m.grid.length

/-- Number of columns (self.grid[0].len(); the caller guards the empty
grid, where the Rust indexing panics). -/
def Maze.cols (m : Maze) : Nat := (m.grid.headD []).length

/-- Grid lookup self.grid[r][c]; none models the Rust index panic. -/
def Maze.tileAt (m : Maze) (r c : Nat) : Option Tile :=
  match m.grid.get? r with
  | none => none
  | some row => row.get? c

/-- Boolean equality of positions. -/
def posEq (a b : Pos) : Bool := a.1.beq b.1 && a.2.beq b.2

/-- Boolean membership of a position in a tile list. -/
def posMem (p : Pos) (ts : List Pos) : Bool := ts.any (posEq p)

/-- Insert a tile into path_tiles if absent (FnvHashSet insertion). -/
def insertTile (ts : List Pos) (p : Pos) : List Pos :=
  bif posMem p ts then ts else ts ++ [p]

/-- path_tiles.extend(path). -/
def extendTiles (ts : List Pos) (path : List Pos) : List Pos :=
  path.foldl insertTile ts

/-- The State pushed on the day-16 frontier: accumulated cost, position,
facing direction and the path taken so far. -/
structure State where
  cost : Nat
  position : Pos
  direction : Direction
  path : List Pos
deriving DecidableEq, Repr

/-- The frontier, modelling the BinaryHeap of States under day_16's Ord
(which compares costs only, reversed, so the heap pops a minimal-cost
entry): a list of cost buckets in increasing cost order, each bucket
holding the queued entries of exactly that cost (the order inside a
bucket is a tie between equal priorities, which BinaryHeap leaves
unspecified; the model keeps newest first).  Pushing prepends to the
bucket of the entry's cost, popping takes the front of the cheapest
bucket: a deterministic refinement of pop-some-minimum. -/
abbrev Frontier := List (Nat × List State)

/-- Push a state on the frontier. -/
def qpush (e : State) : Frontier → Frontier
  | [] => [(e.cost, [e])]
  | (c, b) :: rest =>
    bif Nat.blt c e.cost then (c, b) :: qpush e rest
    else bif Nat.beq c e.cost then (c, e :: b) :: rest
    else (e.cost, [e]) :: (c, b) :: rest

/-- Pop a minimal-cost state from the frontier.  Empty buckets never
arise from qpush, but are skipped for totality. -/
def qpop : Frontier → Option (State × Frontier)
  | [] => none
  | (_, []) :: rest => qpop rest
  | (c, e :: es) :: rest =>
    match es with
    | [] => some (e, rest)
    | _ => some (e, (c, es) :: rest)

/-- The queued entries of the frontier, cheapest first. -/
def flatQ : Frontier → List State
  | [] => []
  | (_, b) :: rest => b ++ flatQ rest

/-- The visited array type: rows by cols by 4 directions. -/
abbrev VisArr := List (List (List (Option Nat)))

/-- Read visited[r][c][d].  The outer none models the Rust index panic
(row or column outside the allocated array, or a diagonal direction
index beyond the 4-element inner array). -/
def visLook (vis : VisArr) (p : Pos) (d : Nat) : Option (Option Nat) :=
  (vis.get? p.1).bind fun row => (row.get? p.2).bind fun cell => cell.get? d

/-- Replace index i of a list by applying f (used for the visited
writes; writes are only performed after a successful read, so the
out-of-range no-op case is unreachable). -/
def updAt {α : Type} (f : α → α) : Nat → List α → List α
  | _, [] => []
  | 0, x :: xs => f x :: xs
  | i + 1, x :: xs => x :: updAt f i xs

/-- Write visited[r][c][d] := some v. -/
def setVis (vis : VisArr) (p : Pos) (d : Nat) (v : Nat) : VisArr :=
  updAt (updAt (updAt (fun _ => some v) d) p.2) p.1 vis

/-- The mutable state of the find_all_best_paths loop: the 3-dimensional
visited cost array (rows by cols by 4 directions), the frontier, the set
of tiles on optimal paths (as a duplicate-free list) and the best goal
cost found. -/
structure SearchSt where
  visited : VisArr
  queue : Frontier
  path_tiles : List Pos
  final_cost : Option Nat
deriving DecidableEq, Repr


/-- Result of one iteration of the while-let loop of
find_all_best_paths. -/
inductive StepRes
  | panic
  | done (r : Option (Nat × Nat))
  | next (st : SearchSt)
deriving DecidableEq, Repr

/-- The target cell of a forward move from p facing dir: the Rust code
computes new_row = (row as i32 + dy as i32) as usize (and likewise for
the column) and guards new_row < rows && new_col < cols; a negative sum
wraps to a huge usize, so the guard is equivalent to asking the signed
sums to lie in [0, rows) and [0, cols). -/
def Maze.fwdCell (m : Maze) (p : Pos) (dir : Direction) : Option Pos :=
  bif decide (0 ≤ (p.1 : Int) + dir.delta.1)
      && decide ((p.1 : Int) + dir.delta.1 < (m.rows : Int))
      && decide (0 ≤ (p.2 : Int) + dir.delta.2)
      && decide ((p.2 : Int) + dir.delta.2 < (m.cols : Int)) then
    some (((p.1 : Int) + dir.delta.1).toNat, ((p.2 : Int) + dir.delta.2).toNat)
  else none

/-- The turn pushes closing the expansion: both turn results are
computed first (as in the Rust array literal, so a diagonal direction
panics before anything is pushed), then pushed with cost + 1000. -/
def Maze.pushTurns (st : SearchSt) (e : State) (vis' : VisArr) (q1 : Frontier) : StepRes :=
  match e.direction.turn_clockwise, e.direction.turn_counterclockwise with
  | some dcw, some dccw =>
    StepRes.next { st with visited := vis'
                           queue := qpush ⟨e.cost + 1000, e.position, dccw, e.path⟩
                             (qpush ⟨e.cost + 1000, e.position, dcw, e.path⟩ q1) }
  | _, _ => StepRes.panic

/-- The expansion part of the loop body of find_all_best_paths, for a
popped state e that was neither the end cell nor pruned: record the cost
in the visited array, push the forward move (cost 1, when the target is
in bounds and not a wall; a missing grid cell is an index panic) and
push both turns (cost 1000 each). -/
def Maze.expand (m : Maze) (st : SearchSt) (e : State) (rest : Frontier) : StepRes :=
  let vis' := setVis st.visited e.position e.direction.idx e.cost
  match m.fwdCell e.position e.direction with
  | some p =>
    match m.tileAt p.1 p.2 with
    | none => StepRes.panic
    | some t =>
      let q1 := if t ≠ Tile.Wall then
          qpush ⟨e.cost + 1, p, e.direction, e.path ++ [p]⟩ rest
        else rest
      Maze.pushTurns st e vis' q1
  | none => Maze.pushTurns st e vis' rest

/-- One iteration of the while-let loop of Maze::find_all_best_paths:
pop the cheapest state; on the end cell record or extend the optimal
tile set; otherwise prune against the visited array (dropping a strictly
dominated entry, and merging the path of an equal-cost entry whose cell
already lies on a recorded optimal path), else expand. -/
def Maze.step (m : Maze) (st : SearchSt) : StepRes :=
  match qpop st.queue with
  | none => StepRes.done (st.final_cost.map fun c => (c, st.path_tiles.length))
  | some (e, rest) =>
    bif posEq e.position m.«end» then
      let final' := match st.final_cost with
        | none => some e.cost
        | some f => some f
      let tiles' := bif final'.any (Nat.beq e.cost) then
          extendTiles st.path_tiles e.path
        else st.path_tiles
      StepRes.next { st with queue := rest, path_tiles := tiles', final_cost := final' }
    else
      match visLook st.visited e.position e.direction.idx with
      | none => StepRes.panic
      | some prevOpt =>
        bif prevOpt.any (fun prev => Nat.blt prev e.cost) then
          StepRes.next { st with queue := rest }
        else bif prevOpt.any (fun prev => Nat.beq prev e.cost
            && posMem e.position st.path_tiles) then
          StepRes.next { st with
            queue := rest
            path_tiles := extendTiles st.path_tiles e.path }
        else m.expand st e rest

/-- Outcome of running the loop with a step budget: panic, budget
exhausted, or the function's return value together with the loop state
at exit. -/
inductive RunOut
  | panic
  | out
  | done (r : Option (Nat × Nat)) (final : SearchSt)
deriving DecidableEq, Repr

/-- Iterate Maze::step up to fuel times. -/
def Maze.runLoop (m : Maze) : Nat → SearchSt → RunOut
  | 0, _ => RunOut.out
  | n + 1, st =>
    match m.step st with
    | StepRes.panic => RunOut.panic
    | StepRes.done r => RunOut.done r st
    | StepRes.next st' => m.runLoop n st'

/-- The initial loop state of find_all_best_paths: an all-none visited
array and the single start state facing Right with cost 0. -/
def Maze.initSt (m : Maze) : SearchSt :=
  { visited := List.replicate m.rows (List.replicate m.cols (List.replicate 4 none))
    queue := [(0, [{ cost := 0
                     position := m.start
                     direction := Direction.Right
                     path := [m.start] }])]
    path_tiles := []
    final_cost := none }

/-- Observable outcome of Maze::find_all_best_paths under a step
budget. -/
inductive RunRes
  | panic
  | out
  | done (r : Option (Nat × Nat))
deriving DecidableEq, Repr

/-- Maze::find_all_best_paths.  Reading self.grid[0] on an empty grid is
the first Rust panic; otherwise the Dijkstra-style loop runs until the
frontier is empty and returns the minimum goal cost paired with the
number of distinct tiles on recorded optimal paths (None when the end
was never reached).  The fuel bounds the number of loop iterations; out
means the budget was exhausted before the loop finished. -/
def Maze.find_all_best_paths (m : Maze) (fuel : Nat) : RunRes :=
  if m.grid = [] then RunRes.panic
  else
    match m.runLoop fuel m.initSt with
    | RunOut.panic => RunRes.panic
    | RunOut.out => RunRes.out
    | RunOut.done r _ => RunRes.done r

/-- The moves of the day-16 cost model stated by the specification:
one forward step, or a quarter turn either way. -/
inductive Move
  | fwd
  | cw
  | ccw
deriving DecidableEq, Repr

/-- Cost of one move: forward costs 1, each turn costs 1000. -/
def moveCost : Move → Nat
  | Move.fwd => 1
  | _ => 1000

/-- Total cost of a move sequence. -/
def movesCost (ms : List Move) : Nat := (ms.map moveCost).sum

/-- A walker state: position and facing direction. -/
abbrev SD := Pos × Direction

/-- Apply one move to a walker state.  A forward move goes to the
forward cell (the same guard the search uses) when that cell holds a
present non-wall tile; a turn leaves the position unchanged and is
defined exactly when the corresponding turn function is. -/
def Maze.applyMove (m : Maze) (s : SD) (mv : Move) : Option SD :=
  match mv with
  | Move.fwd =>
    (m.fwdCell s.1 s.2).bind fun p =>
      (m.tileAt p.1 p.2).bind fun t =>
        if t = Tile.Wall then none else some (p, s.2)
  | Move.cw => (s.2.turn_clockwise).map fun d => (s.1, d)
  | Move.ccw => (s.2.turn_counterclockwise).map fun d => (s.1, d)

/-- Trace update for one move: a forward move appends the entered cell,
a turn leaves the trace unchanged (as the search's path field does). -/
def trUpd (mv : Move) (p : Pos) (tr : List Pos) : List Pos :=
  match mv with
  | Move.fwd => tr ++ [p]
  | _ => tr

/-- Walk a move sequence from a state, collecting the trace of cells
entered (the start cell first, then the target of every forward
move) in the same way the search collects the path field. -/
def Maze.walkT (m : Maze) : SD → List Pos → List Move → Option (SD × List Pos)
  | s, tr, [] => some (s, tr)
  | s, tr, mv :: ms =>
    match m.applyMove s mv with
    | none => none
    | some s' => m.walkT s' (trUpd mv s'.1 tr) ms

/-- Walk a move sequence from the start cell facing Right. -/
def Maze.walk (m : Maze) (ms : List Move) : Option (SD × List Pos) :=
  m.walkT (m.start, Direction.Right) [m.start] ms

/-- The end cell is reachable from the start cell facing Right by some
sequence of moves. -/
def Maze.ReachesEnd (m : Maze) : Prop :=
  ∃ ms out, m.walk ms = some out ∧ out.1.1 = m.«end»

/-- find_all_best_paths terminates with result r for some budget. -/
def Maze.Returns (m : Maze) (r : Option (Nat × Nat)) : Prop :=
  ∃ fuel, m.find_all_best_paths fuel = RunRes.done r

/-- Every row of the grid has the full width (the shape on which the
search is free of index panics). -/
def Maze.Rectangular (m : Maze) : Prop :=
  ∀ row ∈ m.grid, row.length = m.cols

/-- Parse a fixture and run the search, for concrete evaluation. -/
def parseAndSolve (lines : List (List Char)) (fuel : Nat) :
    Option (Except Unit RunRes) :=
  (Maze.from_str lines).map (Except.map fun m => m.find_all_best_paths fuel)


/-- Iterate Maze.step n times, requiring every step to continue (used to
speak about intermediate loop states of a run). -/
def Maze.iterN (m : Maze) : Nat → SearchSt → Option SearchSt
  | 0, st => some st
  | n + 1, st =>
    match m.step st with
    | StepRes.next st' => m.iterN n st'
    | _ => none

/-- The position lies strictly inside the row and column counts. -/
def Maze.InBounds (m : Maze) (p : Pos) : Prop := p.1 < m.rows ∧ p.2 < m.cols

/-- A frontier entry is sound when it is realized by an actual move
sequence from the start state: the walk ends in the entry's position and
direction, its trace is the entry's path field, and its cost is the
entry's cost. -/
def Maze.Sound (m : Maze) (e : State) : Prop :=
  ∃ ms, m.walk ms = some ((e.position, e.direction), e.path) ∧ movesCost ms = e.cost

/-- Well-formed frontier: every entry sits in the bucket of its own
cost, and bucket costs are sorted. -/
def QWF (q : Frontier) : Prop :=
  (∀ cb ∈ q, ∀ x ∈ cb.2, x.cost = cb.1) ∧
  List.Pairwise (fun a b => a ≤ b) (q.map Prod.fst)

/-- The walker state s is accounted for with budget b in the loop state:
either the visited array already records a cost at most b for it, or a
frontier entry at s costs at most b, or s sits on the end cell and the
recorded final cost is at most b. -/
def RelaxedTo (m : Maze) (st : SearchSt) (b : Nat) (s : SD) : Prop :=
  (∃ v, visLook st.visited s.1 s.2.idx = some (some v) ∧ v ≤ b) ∨
  (∃ e ∈ flatQ st.queue, e.position = s.1 ∧ e.direction = s.2 ∧ e.cost ≤ b) ∨
  (s.1 = m.«end» ∧ ∃ F, st.final_cost = some F ∧ F ≤ b)

/-- The visited array has the allocated shape rows by cols by 4. -/
def Maze.VisShape (m : Maze) (vis : VisArr) : Prop :=
  vis.length = m.rows ∧ (∀ row ∈ vis, row.length = m.cols) ∧
  (∀ row ∈ vis, ∀ cell ∈ row, cell.length = 4)

/-- The loop invariant of find_all_best_paths. -/
structure Inv (m : Maze) (st : SearchSt) : Prop where
  wfq : QWF st.queue
  shape : m.VisShape st.visited
  sound : ∀ e ∈ flatQ st.queue, m.Sound e
  visSound : ∀ p d v, visLook st.visited p (Direction.idx d) = some (some v) →
    p ≠ m.«end» ∧ ∃ ms tr, m.walk ms = some (((p, d) : SD), tr) ∧ movesCost ms = v
  relax : ∀ p d v, visLook st.visited p (Direction.idx d) = some (some v) →
    ∀ mv s', m.applyMove (p, d) mv = some s' → RelaxedTo m st (v + moveCost mv) s'
  startRelax : RelaxedTo m st 0 (m.start, Direction.Right)
  finalLe : ∀ F, st.final_cost = some F → ∀ e ∈ flatQ st.queue, F ≤ e.cost
  finalSound : ∀ F, st.final_cost = some F →
    ∃ ms sd tr, m.walk ms = some ((sd : SD), tr) ∧ sd.1 = m.«end» ∧ movesCost ms = F
  visLe : ∀ p d v, visLook st.visited p d = some (some v) →
    ∀ e ∈ flatQ st.queue, v ≤ e.cost
  tilesEmpty : st.final_cost = none → st.path_tiles = []

/-- Number of unwritten visited cells (first component of the
termination measure). -/
def cellNones (cell : List (Option Nat)) : Nat :=
  (cell.map fun o => if o = none then 1 else 0).sum

/-- Total number of unwritten visited cells of the array. -/
def unvisited (vis : VisArr) : Nat :=
  (vis.map fun row => (row.map cellNones).sum).sum

/-- Largest cost recorded in the visited array. -/
def maxVis (vis : VisArr) : Nat :=
  (vis.map fun row =>
    (row.map fun cell => (cell.filterMap id).foldr max 0).foldr max 0).foldr max 0

/-- Second component of the termination measure: a weighted count of
frontier entries in which expanding an entry (which costs at most
maxVis, replacing weight 4 ^ (K - cost) by at most three entries of
weight at most 4 ^ (K - cost - 1)) strictly decreases the total. -/
def phiQ (K : Nat) (q : Frontier) : Nat :=
  ((flatQ q).map fun e => 4 ^ (K - e.cost)).sum

/-- Exhaustive case analysis of one loop iteration of
find_all_best_paths, with each branch's effect on the loop state (used
by the invariant proofs). -/
inductive StepView (m : Maze) (st : SearchSt) : Prop
  | empty
      (hq : qpop st.queue = none)
      (hs : m.step st = StepRes.done (st.final_cost.map fun c => (c, st.path_tiles.length)))
  | goal (e : State) (rest : Frontier) (final' : Option Nat)
      (hq : qpop st.queue = some (e, rest))
      (hpos : e.position = m.«end»)
      (hf : final' = (match st.final_cost with | none => some e.cost | some f => some f))
      (hs : m.step st = StepRes.next { st with
        queue := rest
        path_tiles := bif final'.any (Nat.beq e.cost) then
            extendTiles st.path_tiles e.path
          else st.path_tiles
        final_cost := final' })
  | panicVis (e : State) (rest : Frontier)
      (hq : qpop st.queue = some (e, rest))
      (hpos : e.position ≠ m.«end»)
      (hv : visLook st.visited e.position e.direction.idx = none)
      (hs : m.step st = StepRes.panic)
  | skip (e : State) (rest : Frontier) (prev : Nat)
      (hq : qpop st.queue = some (e, rest))
      (hpos : e.position ≠ m.«end»)
      (hv : visLook st.visited e.position e.direction.idx = some (some prev))
      (hlt : prev < e.cost)
      (hs : m.step st = StepRes.next { st with queue := rest })
  | skipExtend (e : State) (rest : Frontier) (prev : Nat)
      (hq : qpop st.queue = some (e, rest))
      (hpos : e.position ≠ m.«end»)
      (hv : visLook st.visited e.position e.direction.idx = some (some prev))
      (heq : prev = e.cost)
      (hmem : e.position ∈ st.path_tiles)
      (hs : m.step st = StepRes.next { st with
        queue := rest
        path_tiles := extendTiles st.path_tiles e.path })
  | expand (e : State) (rest : Frontier) (prevOpt : Option Nat)
      (hq : qpop st.queue = some (e, rest))
      (hpos : e.position ≠ m.«end»)
      (hv : visLook st.visited e.position e.direction.idx = some prevOpt)
      (hge : ∀ prev, prevOpt = some prev → e.cost ≤ prev)
      (hnm : ∀ prev, prevOpt = some prev → prev = e.cost → e.position ∉ st.path_tiles)
      (hs : m.step st = m.expand st e rest)

/-- The four characters Maze::from_str accepts; any other character hits
the panic arm of its match. -/
def CharOk (c : Char) : Prop := c = '#' ∨ c = '.' ∨ c = 'S' ∨ c = 'E'

instance : DecidablePred CharOk := fun c => by
  unfold CharOk
  infer_instance

/-- The 15-row example maze of the day_16.rs tests (EXAMPLE_1). -/
def ex1lines : List (List Char) :=
  ["###############".toList,
   "#.......#....E#".toList,
   "#.#.###.#.###.#".toList,
   "#.....#.#...#.#".toList,
   "#.###.#####.#.#".toList,
   "#.#.#.......#.#".toList,
   "#.#.#####.###.#".toList,
   "#...........#.#".toList,
   "###.#.#####.#.#".toList,
   "#...#.....#.#.#".toList,
   "#.#.#.###.#.#.#".toList,
   "#.....#...#.#.#".toList,
   "#.###.#.#.#.#.#".toList,
   "#S..#.....#...#".toList,
   "###############".toList]

/-- The 17-row example maze of the day_16.rs tests (EXAMPLE_2). -/
def ex2lines : List (List Char) :=
  ["#################".toList,
   "#...#...#...#..E#".toList,
   "#.#.#.#.#.#.#.#.#".toList,
   "#.#.#.#...#...#.#".toList,
   "#.#.#.#.###.#.#.#".toList,
   "#...#.#.#.....#.#".toList,
   "#.#.#.#.#.#####.#".toList,
   "#.#...#.#.#.....#".toList,
   "#.#.#####.#.###.#".toList,
   "#.#.#.......#...#".toList,
   "#.#.###.#####.###".toList,
   "#.#.#...#.....#.#".toList,
   "#.#.#.#####.###.#".toList,
   "#.#.#.........#.#".toList,
   "#.#.#.#########.#".toList,
   "#S#.............#".toList,
   "#################".toList]

end Day16

namespace Day11

/-- Decimal digit count, by repeated division (the first argument is
fuel, always called with enough of it); models stone.to_string().len()
of day_11.rs. -/
def digitsAux : Nat → Nat → Nat
  | 0, _ => 1
  | f + 1, x => if x < 10 then 1 else digitsAux f (x / 10) + 1

/-- Decimal digit count of a natural number (1 for 0). -/
def decDigits (x : Nat) : Nat := digitsAux x x

/-- Bit length, by repeated halving (first argument is fuel). -/
def bitsAux : Nat → Nat → Nat
  | 0, _ => 0
  | f + 1, x => if x = 0 then 0 else bitsAux f (x / 2) + 1

/-- Number of binary digits of x (0 for 0). -/
def bitLen (x : Nat) : Nat := bitsAux x x

/-- The value of (x as f64) for a usize x: round x to 53 significant
bits, ties to even.  This conversion is fully specified by Rust
(round to nearest); it is exact below 2 to the 53. -/
def f64round (x : Nat) : Nat :=
  let b := bitLen x
  if b ≤ 53 then x
  else
    let e := b - 53
    let p := 2 ^ e
    let q := x / p
    let r := x % p
    let half := p / 2
    if half < r ∨ (r = half ∧ q % 2 = 1) then (q + 1) * p else q * p

/-- The digit count simulate_blinking computes through floating point:
(x as f64).log10() as u32 + 1.  The cast to f64 is exact Rust semantics
(f64round); for the logarithm the model takes the exact floor of the
real log10 of the converted value, which equals its decimal digit count
minus one.  A real libm may round log10 up to the next integer in rare
near-power-of-ten cases, but whenever the converted value is itself an
exact power of ten (as at the inputs used below) every faithfully
rounded log10 returns that integer exactly, so the modelled value is
libm-independent there. -/
def digitsF64 (x : Nat) : Nat := decDigits (f64round x)

/-- The pattern if x == 0 then 1 else (x as f64).log10() as u32 + 1 used
by simulate_blinking for the initial conversion and for split halves. -/
def digitsOrOne (x : Nat) : Nat := if x = 0 then 1 else digitsF64 x

/-- The Stones struct of day_11.rs. -/
structure Stones where
  arrangement : List Nat
deriving DecidableEq, Repr

/-- One iteration of the blink loop of simulate_blinking over the
(value, digit count) pairs: 0 becomes 1; an even digit count splits the
stone at the midpoint power of ten; otherwise the value is multiplied
by 2024. -/
def blinkPairs : List (Nat × Nat) → List (Nat × Nat)
  | [] => []
  | (value, digits) :: rest =>
    (if value = 0 then [(1, 1)]
     else if digits % 2 = 0 then
       let power := 10 ^ (digits / 2)
       let left := value / power
       let right := value % power
       [(left, digitsOrOne left), (right, digitsOrOne right)]
     else
       let nv := value * 2024
       [(nv, digitsF64 nv)]) ++ blinkPairs rest

/-- Iterate blinkPairs n times. -/
def iterBlink : Nat → List (Nat × Nat) → List (Nat × Nat)
  | 0, cur => cur
  | n + 1, cur => iterBlink n (blinkPairs cur)

/-- Stones::simulate_blinking: convert to (value, digit count) pairs,
blink n times, keep the values.  (The Rust method mutates self; the
model returns the new Stones.) -/
def Stones.simulate_blinking (s : Stones) (n : Nat) : Stones :=
  let current := s.arrangement.map fun x => (x, digitsOrOne x)
  { arrangement := (iterBlink n current).map (·.1) }

/-- The memo cache of count_evolved_stones: (stone, iterations) to
count.  HashMap is modelled as an association list where insertion
prepends and lookup takes the newest entry. -/
abbrev Memo := List ((Nat × Nat) × Nat)

/-- HashMap::get on the memo. -/
def memoFind (k : Nat × Nat) : Memo → Option Nat
  | [] => none
  | (k', v) :: rest => if k' = k then some v else memoFind k rest

/-- Stones::count_evolved_stones_recursive of day_11.rs (the &self
receiver is unused in the Rust code): the number of stones a single
stone becomes after the given iterations, memoized; digit counts here
come from to_string().len(), and an even count d splits the digit
string at mid = d / 2, so left = stone / 10 ^ (d - mid) and
right = stone % 10 ^ (d - mid). -/
def count_evolved_stones_recursive : Nat → Nat → Memo → Nat × Memo
  | _, 0, memo => (1, memo)
  | stone, iters + 1, memo =>
    match memoFind (stone, iters + 1) memo with
    | some c => (c, memo)
    | none =>
      let rm :=
        if stone = 0 then count_evolved_stones_recursive 1 iters memo
        else
          let digit_count := decDigits stone
          if digit_count % 2 = 0 then
            let mid := digit_count / 2
            let p := 10 ^ (digit_count - mid)
            let ra := count_evolved_stones_recursive (stone / p) iters memo
            let rb := count_evolved_stones_recursive (stone % p) iters ra.2
            (ra.1 + rb.1, rb.2)
          else count_evolved_stones_recursive (stone * 2024) iters memo
      (rm.1, ((stone, iters + 1), rm.1) :: rm.2)

/-- The while-let queue loop of count_evolved_stones, accumulating the
total over the initial stones with one shared memo. -/
def cesQueue : List (Nat × Nat) → Memo → Nat → Nat
  | [], _, total => total
  | (stone, iters) :: rest, memo, total =>
    let cm := count_evolved_stones_recursive stone iters memo
    cesQueue rest cm.2 (total + cm.1)

/-- Stones::count_evolved_stones: count the stones after the given
number of iterations without materializing them. -/
def Stones.count_evolved_stones (s : Stones) (iterations : Nat) : Nat :=
  cesQueue (s.arrangement.map fun stone => (stone, iterations)) [] 0

end Day11

end Aoc

/-! Theorems.  Claim theorems are named after the claim ids of the
accompanying results; the remaining lemmas are shared supporting
material. -/

namespace Aoc

namespace Day11

/-- C8: the memoized count and the list simulation of the day-11 blink
recurrence disagree at the single 17-digit stone 99999999999999999: the
f64 cast rounds it to exactly 10 to the 17, the float-based digit count
of simulate_blinking therefore sees 18 digits (an even number) and
splits the stone, while count_evolved_stones counts the 17 characters of
its decimal string (odd) and multiplies by 2024, so after one blink the
simulation holds two stones but the memoized count is 1. -/
theorem C8_count_vs_simulate_divergence :
    Stones.count_evolved_stones ⟨[99999999999999999]⟩ 1 = 1 ∧
    (Stones.simulate_blinking ⟨[99999999999999999]⟩ 1).arrangement
      = [99999999, 999999999] ∧
    Stones.count_evolved_stones ⟨[99999999999999999]⟩ 1 ≠
      (Stones.simulate_blinking ⟨[99999999999999999]⟩ 1).arrangement.length := by
  refine ⟨?_, ?_, ?_⟩ <;> decide

end Day11

namespace Day16

theorem parseChar_none_of {c : Char} (h : ¬ CharOk c) : parseChar c = none := by
  unfold CharOk at h
  push_neg at h
  obtain ⟨h1, h2, h3, h4⟩ := h
  simp [parseChar, h1, h2, h3, h4]

theorem parseChar_some_of {c : Char} (h : CharOk c) : ∃ t, parseChar c = some t := by
  obtain rfl | rfl | rfl | rfl := h <;> exact ⟨_, rfl⟩

theorem fromStrRow_ok (i : Nat) (cs : List Char) :
    ∀ (j : Nat) (s e : Pos), (∀ c ∈ cs, CharOk c) →
    ∃ row s' e', fromStrRow i j cs s e = some (row, s', e') ∧
      ('S' ∉ cs → s' = s) ∧ ('E' ∉ cs → e' = e) := by
  induction cs with
  | nil => intro j s e _; exact ⟨[], s, e, rfl, fun _ => rfl, fun _ => rfl⟩
  | cons c cs ih =>
    intro j s e h
    obtain ⟨t, ht⟩ := parseChar_some_of (h c (List.mem_cons_self c cs))
    obtain ⟨row, s'', e'', hrec, hs, he⟩ :=
      ih (j + 1) (if c = 'S' then (i, j) else s) (if c = 'E' then (i, j) else e)
        (fun c' hc' => h c' (List.mem_cons_of_mem c hc'))
    refine ⟨t :: row, s'', e'', ?_, ?_, ?_⟩
    · simp only [fromStrRow, ht, hrec]
    · intro hS
      have hcS : c ≠ 'S' := fun hc => hS (hc ▸ List.mem_cons_self c cs)
      have := hs (fun hmem => hS (List.mem_cons_of_mem c hmem))
      simpa [hcS] using this
    · intro hE
      have hcE : c ≠ 'E' := fun hc => hE (hc ▸ List.mem_cons_self c cs)
      have := he (fun hmem => hE (List.mem_cons_of_mem c hmem))
      simpa [hcE] using this

theorem fromStrRow_none (i : Nat) (cs : List Char) :
    ∀ (j : Nat) (s e : Pos), (∃ c ∈ cs, ¬ CharOk c) →
    fromStrRow i j cs s e = none := by
  induction cs with
  | nil => intro j s e h; simp at h
  | cons c cs ih =>
    intro j s e h
    by_cases hc : CharOk c
    · obtain ⟨t, ht⟩ := parseChar_some_of hc
      have hbad : ∃ c' ∈ cs, ¬ CharOk c' := by
        obtain ⟨c', hc', hbad⟩ := h
        rcases List.mem_cons.mp hc' with rfl | hmem
        · exact absurd hc hbad
        · exact ⟨c', hmem, hbad⟩
      simp only [fromStrRow, ht, ih _ _ _ hbad]
    · simp only [fromStrRow, parseChar_none_of hc]

theorem fromStrGo_ok (lines : List (List Char)) :
    ∀ (i : Nat) (s e : Pos), (∀ l ∈ lines, ∀ c ∈ l, CharOk c) →
    ∃ rows s' e', fromStrGo i lines s e = some (rows, s', e') ∧
      ((∀ l ∈ lines, 'S' ∉ l) → s' = s) ∧ ((∀ l ∈ lines, 'E' ∉ l) → e' = e) := by
  induction lines with
  | nil => intro i s e _; exact ⟨[], s, e, rfl, fun _ => rfl, fun _ => rfl⟩
  | cons l ls ih =>
    intro i s e h
    obtain ⟨row, s1, e1, hrow, hrs, hre⟩ :=
      fromStrRow_ok i l 0 s e (h l (List.mem_cons_self l ls))
    obtain ⟨rows, s2, e2, hrec, hgs, hge⟩ :=
      ih (i + 1) s1 e1 (fun l' hl' => h l' (List.mem_cons_of_mem l hl'))
    refine ⟨row :: rows, s2, e2, ?_, ?_, ?_⟩
    · simp only [fromStrGo, hrow, hrec]
    · intro hS
      have h1 : s1 = s := hrs (hS l (List.mem_cons_self l ls))
      have h2 : s2 = s1 := hgs (fun l' hl' => hS l' (List.mem_cons_of_mem l hl'))
      rw [h2, h1]
    · intro hE
      have h1 : e1 = e := hre (hE l (List.mem_cons_self l ls))
      have h2 : e2 = e1 := hge (fun l' hl' => hE l' (List.mem_cons_of_mem l hl'))
      rw [h2, h1]

theorem fromStrGo_none (lines : List (List Char)) :
    ∀ (i : Nat) (s e : Pos), (∃ l ∈ lines, ∃ c ∈ l, ¬ CharOk c) →
    fromStrGo i lines s e = none := by
  induction lines with
  | nil => intro i s e h; simp at h
  | cons l ls ih =>
    intro i s e h
    by_cases hl : ∀ c ∈ l, CharOk c
    · have hbad : ∃ l' ∈ ls, ∃ c ∈ l', ¬ CharOk c := by
        obtain ⟨l', hl', c, hc, hbad⟩ := h
        rcases List.mem_cons.mp hl' with rfl | hmem
        · exact absurd (hl c hc) hbad
        · exact ⟨l', hmem, c, hc, hbad⟩
      obtain ⟨row, s1, e1, hrow, _, _⟩ := fromStrRow_ok i l 0 s e hl
      simp only [fromStrGo, hrow, ih _ _ _ hbad]
    · push_neg at hl
      obtain ⟨c, hc, hbad⟩ := hl
      simp only [fromStrGo, fromStrRow_none i l 0 s e ⟨c, hc, hbad⟩]

/-- C10: Maze::from_str never returns an Err value; on any input whose
characters are all in the set braces hash, dot, S, E it returns Ok, and
when the input has no S (respectively no E) the resulting start
(respectively end) cell silently stays at the default (0, 0). -/
theorem C10_from_str_total_with_defaults :
    (∀ lines, Maze.from_str lines ≠ some (Except.error ())) ∧
    (∀ lines, (∀ l ∈ lines, ∀ c ∈ l, CharOk c) →
      ∃ m, Maze.from_str lines = some (Except.ok m) ∧
        ((∀ l ∈ lines, 'S' ∉ l) → m.start = (0, 0)) ∧
        ((∀ l ∈ lines, 'E' ∉ l) → m.«end» = (0, 0))) := by
  constructor
  · intro lines h
    unfold Maze.from_str at h
    split at h <;> simp at h
  · intro lines h
    obtain ⟨rows, s', e', hgo, hs, he⟩ := fromStrGo_ok lines 0 (0, 0) (0, 0) h
    refine ⟨{ grid := rows, start := s', «end» := e' }, ?_, ?_, ?_⟩
    · simp only [Maze.from_str, hgo]
    · exact hs
    · exact he

/-- Witness for C10 at the one-character input hash: parsing succeeds
with default start and end. -/
theorem C10_witness :
    (∀ l ∈ [['#']], ∀ c ∈ l, CharOk c) ∧
    (∃ m, Maze.from_str [['#']] = some (Except.ok m) ∧
      ((∀ l ∈ [['#']], 'S' ∉ l) → m.start = (0, 0)) ∧
      ((∀ l ∈ [['#']], 'E' ∉ l) → m.«end» = (0, 0))) :=
  ⟨by decide, C10_from_str_total_with_defaults.2 [['#']] (by decide)⟩

/-- C5 counterexample: an input with inconsistent line lengths (2 then
1) and only valid characters is accepted by Maze::from_str, yielding a
ragged maze, so from_str does not fail on inconsistent row lengths. -/
theorem C5_counterexample :
    Maze.from_str [['.', '.'], ['.']] =
      some (Except.ok { grid := [[Tile.Empty, Tile.Empty], [Tile.Empty]]
                        start := (0, 0)
                        «end» := (0, 0) }) ∧
    ¬ Maze.Rectangular { grid := [[Tile.Empty, Tile.Empty], [Tile.Empty]]
                         start := (0, 0)
                         «end» := (0, 0) } := by
  constructor
  · rfl
  · intro h
    have := h [Tile.Empty] (by simp)
    simp [Maze.cols] at this

/-- C5 (amended): Maze::from_str panics exactly on malformed characters:
any input containing a character other than hash, dot, S, E makes it
panic (it yields no Maze); inputs with inconsistent line lengths are not
rejected. -/
theorem C5_invalid_char_panics (lines : List (List Char))
    (h : ∃ l ∈ lines, ∃ c ∈ l, ¬ CharOk c) :
    Maze.from_str lines = none := by
  simp only [Maze.from_str, fromStrGo_none lines 0 (0, 0) (0, 0) h]

/-- Witness for C5 at the input consisting of one letter x. -/
theorem C5_witness :
    (∃ l ∈ [['x']], ∃ c ∈ l, ¬ CharOk c) ∧ Maze.from_str [['x']] = none :=
  ⟨by decide, C5_invalid_char_panics [['x']] (by decide)⟩

/-- C7 counterexample: the empty input parses to a maze with no rows
whose start and end both default to (0, 0), and on it
find_all_best_paths panics (reading grid[0]) instead of returning
Some((0, 1)). -/
theorem C7_counterexample :
    Maze.from_str [] = some (Except.ok { grid := [], start := (0, 0), «end» := (0, 0) }) ∧
    ({ grid := [], start := (0, 0), «end» := (0, 0) } : Maze).start
      = ({ grid := [], start := (0, 0), «end» := (0, 0) } : Maze).«end» ∧
    ¬ Maze.Returns { grid := [], start := (0, 0), «end» := (0, 0) } (some (0, 1)) := by
  refine ⟨rfl, rfl, ?_⟩
  rintro ⟨fuel, h⟩
  simp [Maze.find_all_best_paths] at h

/-- C7 (amended): on every maze with at least one row whose start cell
equals its end cell, find_all_best_paths returns Some((0, 1)): the
initial state is popped, matches the end, records cost 0 and the single
start tile, and the loop exits with the frontier empty. -/
theorem C7_start_eq_end (m : Maze) (hg : m.grid ≠ []) (hse : m.start = m.«end»)
    (fuel : Nat) (hf : 2 ≤ fuel) :
    m.find_all_best_paths fuel = RunRes.done (some (0, 1)) := by
  obtain ⟨k, rfl⟩ : ∃ k, fuel = k + 2 := ⟨fuel - 2, by omega⟩
  have h1 : m.step m.initSt = StepRes.next
      { m.initSt with queue := [], path_tiles := [m.start], final_cost := some 0 } := by
    simp [Maze.step, Maze.initSt, qpop, hse, posEq, extendTiles, insertTile, posMem]
  have h2 : m.step { m.initSt with
      queue := [], path_tiles := [m.start], final_cost := some 0 } =
      StepRes.done (some (0, 1)) := by
    simp [Maze.step, qpop]
  unfold Maze.find_all_best_paths
  rw [if_neg hg]
  have hrun : m.runLoop (k + 2) m.initSt = RunOut.done (some (0, 1))
      { m.initSt with queue := [], path_tiles := [m.start], final_cost := some 0 } := by
    show Maze.runLoop m (k + 1 + 1) m.initSt = _
    unfold Maze.runLoop
    rw [h1]
    show Maze.runLoop m (k + 1) _ = _
    unfold Maze.runLoop
    rw [h2]
  rw [hrun]

/-- Witness for C7 at the one-cell maze S. -/
theorem C7_witness :
    (({ grid := [[Tile.Start]], start := (0, 0), «end» := (0, 0) } : Maze).grid ≠ [] ∧
      ({ grid := [[Tile.Start]], start := (0, 0), «end» := (0, 0) } : Maze).start
        = ({ grid := [[Tile.Start]], start := (0, 0), «end» := (0, 0) } : Maze).«end» ∧
      2 ≤ 2) ∧
    Maze.find_all_best_paths
      { grid := [[Tile.Start]], start := (0, 0), «end» := (0, 0) } 2
      = RunRes.done (some (0, 1)) :=
  ⟨⟨by decide, rfl, by decide⟩,
    C7_start_eq_end _ (by decide) rfl 2 (by decide)⟩

theorem posEq_iff {a b : Pos} : posEq a b = true ↔ a = b := by
  cases a; cases b
  simp [posEq, Nat.beq_eq, Prod.ext_iff]

theorem posEq_self (p : Pos) : posEq p p = true := posEq_iff.mpr rfl

theorem posMem_iff {p : Pos} {ts : List Pos} : posMem p ts = true ↔ p ∈ ts := by
  simp only [posMem, List.any_eq_true]
  constructor
  · rintro ⟨x, hx, he⟩
    exact (posEq_iff.mp he) ▸ hx
  · intro h
    exact ⟨p, h, posEq_self p⟩

theorem mem_insertTile {x p : Pos} {ts : List Pos} :
    x ∈ insertTile ts p ↔ x ∈ ts ∨ x = p := by
  unfold insertTile
  cases hm : posMem p ts with
  | true =>
    have hp : p ∈ ts := posMem_iff.mp hm
    simp only [cond_true]
    constructor
    · exact Or.inl
    · rintro (h | rfl)
      · exact h
      · exact hp
  | false => simp [cond_false]

theorem mem_extendTiles {x : Pos} {path ts : List Pos} :
    x ∈ extendTiles ts path ↔ x ∈ ts ∨ x ∈ path := by
  induction path generalizing ts with
  | nil => simp [extendTiles]
  | cons p rest ih =>
    show x ∈ extendTiles (insertTile ts p) rest ↔ _
    rw [ih, mem_insertTile]
    simp only [List.mem_cons]
    tauto

theorem mem_flatQ {x : State} {q : Frontier} :
    x ∈ flatQ q ↔ ∃ cb ∈ q, x ∈ cb.2 := by
  induction q with
  | nil => simp [flatQ]
  | cons cb rest ih =>
    cases cb with
    | mk c b =>
      simp only [flatQ, List.mem_append, ih, List.mem_cons]
      constructor
      · rintro (h | ⟨cb', h1, h2⟩)
        · exact ⟨(c, b), Or.inl rfl, h⟩
        · exact ⟨cb', Or.inr h1, h2⟩
      · rintro ⟨cb', rfl | h1, h2⟩
        · exact Or.inl h2
        · exact Or.inr ⟨cb', h1, h2⟩

theorem mem_flatQ_qpush {x e : State} {q : Frontier} :
    x ∈ flatQ (qpush e q) ↔ x = e ∨ x ∈ flatQ q := by
  induction q with
  | nil => simp [qpush, flatQ]
  | cons cb rest ih =>
    cases cb with
    | mk c b =>
      unfold qpush
      cases hlt : Nat.blt c e.cost with
      | true =>
        simp only [cond_true, flatQ, List.mem_append, ih]
        tauto
      | false =>
        cases heq : Nat.beq c e.cost with
        | true =>
          simp only [cond_false, cond_true, flatQ, List.mem_append, List.mem_cons]
          tauto
        | false =>
          simp only [cond_false, flatQ, List.mem_append, List.mem_singleton,
            List.mem_cons]
          tauto

theorem qpop_flat {q : Frontier} {e : State} {q' : Frontier} :
    qpop q = some (e, q') → flatQ q = e :: flatQ q' := by
  induction q generalizing q' with
  | nil => intro h; simp [qpop] at h
  | cons cb rest ih =>
    cases cb with
    | mk c b =>
      cases b with
      | nil =>
        intro h
        have := @ih q' (by simpa [qpop] using h)
        simpa [flatQ] using this
      | cons e0 es =>
        cases es with
        | nil =>
          intro h
          simp only [qpop] at h
          obtain ⟨rfl, rfl⟩ : e0 = e ∧ rest = q' := by
            constructor <;> [exact congrArg Prod.fst (Option.some.inj h);
              exact congrArg Prod.snd (Option.some.inj h)]
          simp [flatQ]
        | cons e1 es' =>
          intro h
          simp only [qpop] at h
          obtain ⟨rfl, rfl⟩ : e0 = e ∧ (c, e1 :: es') :: rest = q' := by
            constructor <;> [exact congrArg Prod.fst (Option.some.inj h);
              exact congrArg Prod.snd (Option.some.inj h)]
          simp [flatQ]

theorem qpop_none {q : Frontier} : qpop q = none → flatQ q = [] := by
  induction q with
  | nil => intro _; rfl
  | cons cb rest ih =>
    cases cb with
    | mk c b =>
      cases b with
      | nil =>
        intro h
        simpa [flatQ] using ih (by simpa [qpop] using h)
      | cons e0 es =>
        intro h
        cases es <;> simp [qpop] at h

theorem QWF_tail {cb : Nat × List State} {rest : Frontier} (h : QWF (cb :: rest)) :
    QWF rest :=
  ⟨fun cb' h' x hx => h.1 cb' (List.mem_cons_of_mem cb h') x hx,
    (List.pairwise_cons.mp (by simpa using h.2)).2⟩

theorem QWF_flat_sorted {q : Frontier} (h : QWF q) :
    (flatQ q).Pairwise (fun a b => a.cost ≤ b.cost) := by
  induction q with
  | nil => exact List.Pairwise.nil
  | cons cb rest ih =>
    cases cb with
    | mk c b =>
      have hb : ∀ x ∈ b, x.cost = c := fun x hx =>
        h.1 (c, b) (List.mem_cons_self _ _) x hx
      have hkeys : ∀ k ∈ rest.map Prod.fst, c ≤ k :=
        (List.pairwise_cons.mp (by simpa using h.2)).1
      have hrest : ∀ x ∈ flatQ rest, c ≤ x.cost := by
        intro x hx
        obtain ⟨cb', h1, h2⟩ := mem_flatQ.mp hx
        have := h.1 cb' (List.mem_cons_of_mem _ h1) x h2
        rw [this]
        exact hkeys cb'.1 (List.mem_map_of_mem Prod.fst h1)
      show (b ++ flatQ rest).Pairwise _
      rw [List.pairwise_append]
      refine ⟨?_, ih (QWF_tail h), ?_⟩
      · apply List.pairwise_of_forall_mem_list
        intro x hx y hy
        rw [hb x hx, hb y hy]
      · intro x hx y hy
        rw [hb x hx]
        exact hrest y hy

theorem mem_map_fst_qpush {cb : Nat × List State} {e : State} {q : Frontier}
    (h : cb ∈ qpush e q) : cb = (e.cost, [e]) ∨ cb ∈ q ∨ ∃ c b, (c, b) ∈ q ∧ cb = (c, e :: b) := by
  induction q with
  | nil => simpa [qpush] using h
  | cons cb0 rest ih =>
    cases cb0 with
    | mk c b =>
      unfold qpush at h
      cases hlt : Nat.blt c e.cost with
      | true =>
        rw [hlt] at h
        simp only [cond_true, List.mem_cons] at h
        rcases h with rfl | h
        · exact Or.inr (Or.inl (List.mem_cons_self _ _))
        · rcases ih h with h | h | ⟨c', b', h1, h2⟩
          · exact Or.inl h
          · exact Or.inr (Or.inl (List.mem_cons_of_mem _ h))
          · exact Or.inr (Or.inr ⟨c', b', List.mem_cons_of_mem _ h1, h2⟩)
      | false =>
        rw [hlt] at h
        cases heq : Nat.beq c e.cost with
        | true =>
          rw [heq] at h
          simp only [cond_false, cond_true, List.mem_cons] at h
          rcases h with rfl | h
          · exact Or.inr (Or.inr ⟨c, b, List.mem_cons_self _ _, rfl⟩)
          · exact Or.inr (Or.inl (List.mem_cons_of_mem _ h))
        | false =>
          rw [heq] at h
          simp only [cond_false, List.mem_cons] at h
          rcases h with rfl | rfl | h
          · exact Or.inl rfl
          · exact Or.inr (Or.inl (List.mem_cons_self _ _))
          · exact Or.inr (Or.inl (List.mem_cons_of_mem _ h))

theorem qpop_min {q : Frontier} {e : State} {q' : Frontier} (hwf : QWF q)
    (h : qpop q = some (e, q')) : ∀ x ∈ flatQ q', e.cost ≤ x.cost := by
  have hs := QWF_flat_sorted hwf
  rw [qpop_flat h] at hs
  exact fun x hx => (List.pairwise_cons.mp hs).1 x hx

theorem QWF_qpush {e : State} {q : Frontier} (h : QWF q) : QWF (qpush e q) := by
  induction q with
  | nil =>
    constructor
    · intro cb hcb x hx
      simp only [qpush, List.mem_singleton] at hcb
      subst hcb
      simp only [List.mem_singleton] at hx
      subst hx
      rfl
    · simp [qpush]
  | cons cb rest ih =>
    cases cb with
    | mk c b =>
      unfold qpush
      cases hlt : Nat.blt c e.cost with
      | true =>
        have hclt : c < e.cost := by simpa [Nat.blt_eq] using hlt
        have hwf' := ih (QWF_tail h)
        simp only [cond_true]
        constructor
        · intro cb' hcb' x hx
          rcases List.mem_cons.mp hcb' with rfl | hmem
          · exact h.1 (c, b) (List.mem_cons_self _ _) x hx
          · exact hwf'.1 cb' hmem x hx
        · rw [List.map_cons, List.pairwise_cons]
          constructor
          · intro k hk
            obtain ⟨cb', hcb', rfl⟩ := List.mem_map.mp hk
            rcases mem_map_fst_qpush hcb' with rfl | hmem | ⟨c', b', hmem, rfl⟩
            · exact Nat.le_of_lt hclt
            · exact (List.pairwise_cons.mp (by simpa using h.2)).1 cb'.1
                (List.mem_map_of_mem Prod.fst hmem)
            · exact (List.pairwise_cons.mp (by simpa using h.2)).1 c'
                (List.mem_map_of_mem Prod.fst hmem)
          · exact hwf'.2
      | false =>
        cases heq : Nat.beq c e.cost with
        | true =>
          have hceq : c = e.cost := Nat.eq_of_beq_eq_true heq
          simp only [cond_false, cond_true]
          constructor
          · intro cb' hcb' x hx
            rcases List.mem_cons.mp hcb' with rfl | hmem
            · rcases List.mem_cons.mp hx with rfl | hx'
              · exact hceq.symm
              · exact h.1 (c, b) (List.mem_cons_self _ _) x hx'
            · exact h.1 cb' (List.mem_cons_of_mem _ hmem) x hx
          · simpa using h.2
        | false =>
          have hcge : e.cost < c := by
            have h1 : ¬ c < e.cost := by
              rw [← Nat.blt_eq]
              simp [hlt]
            have h2 : c ≠ e.cost := by
              intro hc
              subst hc
              simp at heq
            omega
          simp only [cond_false]
          constructor
          · intro cb' hcb' x hx
            rcases List.mem_cons.mp hcb' with rfl | hmem
            · rcases List.mem_cons.mp hx with rfl | hx'
              · rfl
              · simp at hx'
            · exact h.1 cb' hmem x hx
          · rw [List.map_cons, List.pairwise_cons]
            constructor
            · intro k hk
              rcases List.mem_cons.mp hk with rfl | hmem
              · exact Nat.le_of_lt hcge
              · have := (List.pairwise_cons.mp (by simpa using h.2)).1 k hmem
                omega
            · simpa using h.2

theorem QWF_qpop {q : Frontier} {e : State} {q' : Frontier} (hwf : QWF q)
    (h : qpop q = some (e, q')) : QWF q' := by
  induction q generalizing q' with
  | nil => simp [qpop] at h
  | cons cb rest ih =>
    cases cb with
    | mk c b =>
      cases b with
      | nil => exact ih (QWF_tail hwf) (by simpa [qpop] using h)
      | cons e0 es =>
        cases es with
        | nil =>
          simp only [qpop] at h
          have : rest = q' := congrArg Prod.snd (Option.some.inj h)
          exact this ▸ QWF_tail hwf
        | cons e1 es' =>
          simp only [qpop] at h
          have hq : (c, e1 :: es') :: rest = q' :=
            congrArg Prod.snd (Option.some.inj h)
          subst hq
          constructor
          · intro cb' hcb' x hx
            rcases List.mem_cons.mp hcb' with rfl | hmem
            · exact hwf.1 (c, e0 :: e1 :: es') (List.mem_cons_self _ _) x
                (List.mem_cons_of_mem _ hx)
            · exact hwf.1 cb' (List.mem_cons_of_mem _ hmem) x hx
          · simpa using hwf.2

theorem length_updAt {α : Type} (f : α → α) (i : Nat) (l : List α) :
    (updAt f i l).length = l.length := by
  induction l generalizing i with
  | nil => cases i <;> rfl
  | cons x xs ih =>
    cases i with
    | zero => rfl
    | succ j => simpa [updAt] using ih j

theorem get?_updAt_self {α : Type} (f : α → α) (i : Nat) (l : List α) :
    (updAt f i l).get? i = (l.get? i).map f := by
  induction l generalizing i with
  | nil => cases i <;> rfl
  | cons x xs ih =>
    cases i with
    | zero => rfl
    | succ j => simpa [updAt] using ih j

theorem get?_updAt_ne {α : Type} (f : α → α) {i j : Nat} (l : List α)
    (h : i ≠ j) : (updAt f i l).get? j = l.get? j := by
  induction l generalizing i j with
  | nil => cases i <;> rfl
  | cons x xs ih =>
    cases i with
    | zero =>
      cases j with
      | zero => exact absurd rfl h
      | succ j' => rfl
    | succ i' =>
      cases j with
      | zero => rfl
      | succ j' => simpa [updAt] using ih (fun hc => h (by rw [hc]))

theorem updAt_eq_self {α : Type} {f : α → α} {i : Nat} {l : List α} {x : α}
    (h : l.get? i = some x) (hf : f x = x) : updAt f i l = l := by
  induction l generalizing i with
  | nil => cases i <;> rfl
  | cons y ys ih =>
    cases i with
    | zero =>
      have : y = x := by simpa using h
      subst this
      simp [updAt, hf]
    | succ j =>
      simp only [updAt, List.cons.injEq, true_and]
      exact ih (by simpa using h)

theorem mem_updAt {α : Type} {y : α} {f : α → α} {i : Nat} {l : List α}
    (h : y ∈ updAt f i l) : y ∈ l ∨ ∃ x ∈ l, y = f x := by
  induction l generalizing i with
  | nil => cases i <;> simp [updAt] at h
  | cons x xs ih =>
    cases i with
    | zero =>
      rcases List.mem_cons.mp h with rfl | hmem
      · exact Or.inr ⟨x, List.mem_cons_self _ _, rfl⟩
      · exact Or.inl (List.mem_cons_of_mem _ hmem)
    | succ j =>
      rcases List.mem_cons.mp h with rfl | hmem
      · exact Or.inl (List.mem_cons_self _ _)
      · rcases ih hmem with h1 | ⟨x', h1, h2⟩
        · exact Or.inl (List.mem_cons_of_mem _ h1)
        · exact Or.inr ⟨x', List.mem_cons_of_mem _ h1, h2⟩

theorem visLook_eq_bind (vis : VisArr) (p : Pos) (d : Nat) :
    visLook vis p d =
      (vis.get? p.1).bind fun row => (row.get? p.2).bind fun cell => cell.get? d := rfl

theorem visLook_setVis_self {vis : VisArr} {p : Pos} {d : Nat} {w : Option Nat}
    (v : Nat) (h : visLook vis p d = some w) :
    visLook (setVis vis p d v) p d = some (some v) := by
  rw [visLook_eq_bind] at h ⊢
  unfold setVis
  rw [get?_updAt_self]
  cases hrow : vis.get? p.1 with
  | none => rw [hrow] at h; simp at h
  | some row =>
    rw [hrow] at h
    simp only [Option.some_bind] at h
    simp only [Option.map_some', Option.some_bind]
    rw [get?_updAt_self]
    cases hcell : row.get? p.2 with
    | none => rw [hcell] at h; simp at h
    | some cell =>
      rw [hcell] at h
      simp only [Option.some_bind] at h
      simp only [Option.map_some', Option.some_bind]
      rw [get?_updAt_self]
      cases hd : cell.get? d with
      | none => rw [hd] at h; simp at h
      | some o => simp

theorem visLook_setVis_ne {vis : VisArr} {p p' : Pos} {d d' : Nat} (v : Nat)
    (h : p ≠ p' ∨ d ≠ d') :
    visLook (setVis vis p d v) p' d' = visLook vis p' d' := by
  rw [visLook_eq_bind, visLook_eq_bind]
  unfold setVis
  by_cases h1 : p.1 = p'.1
  · rw [h1, get?_updAt_self]
    cases hrow : vis.get? p'.1 with
    | none => rfl
    | some row =>
      simp only [Option.map_some', Option.some_bind]
      by_cases h2 : p.2 = p'.2
      · rw [h2, get?_updAt_self]
        cases hcell : row.get? p'.2 with
        | none => rfl
        | some cell =>
          simp only [Option.map_some', Option.some_bind]
          have hd : d ≠ d' := by
            rcases h with hp | hd
            · exact absurd (Prod.ext h1 h2) hp
            · exact hd
          rw [get?_updAt_ne _ _ hd]
      · rw [get?_updAt_ne _ _ h2]
  · rw [get?_updAt_ne _ _ h1]

theorem setVis_eq_self {vis : VisArr} {p : Pos} {d : Nat} {v : Nat}
    (h : visLook vis p d = some (some v)) : setVis vis p d v = vis := by
  rw [visLook_eq_bind] at h
  cases hrow : vis.get? p.1 with
  | none => rw [hrow] at h; simp at h
  | some row =>
    rw [hrow] at h
    simp only [Option.some_bind] at h
    cases hcell : row.get? p.2 with
    | none => rw [hcell] at h; simp at h
    | some cell =>
      rw [hcell] at h
      simp only [Option.some_bind] at h
      unfold setVis
      apply updAt_eq_self hrow
      apply updAt_eq_self hcell
      exact updAt_eq_self h rfl

theorem movesCost_append (ms ms' : List Move) :
    movesCost (ms ++ ms') = movesCost ms + movesCost ms' := by
  simp [movesCost]

theorem walkT_append (m : Maze) (ms ms' : List Move) :
    ∀ (s : SD) (tr : List Pos),
    m.walkT s tr (ms ++ ms') =
      (m.walkT s tr ms).bind fun r => m.walkT r.1 r.2 ms' := by
  induction ms with
  | nil => intro s tr; rfl
  | cons mv ms ih =>
    intro s tr
    cases h : m.applyMove s mv with
    | none => simp [Maze.walkT, h]
    | some s' => simp [Maze.walkT, h, ih]

theorem walk_snoc {m : Maze} {ms : List Move} {sd : SD} {tr : List Pos}
    (h : m.walk ms = some (sd, tr)) {mv : Move} {sd' : SD}
    (h2 : m.applyMove sd mv = some sd') :
    m.walk (ms ++ [mv]) = some (sd', trUpd mv sd'.1 tr) := by
  unfold Maze.walk at h ⊢
  rw [walkT_append, h]
  simp [Maze.walkT, h2]

theorem walk_snoc_inv {m : Maze} {ms : List Move} {mv : Move} {r : SD × List Pos}
    (h : m.walk (ms ++ [mv]) = some r) :
    ∃ sd tr, m.walk ms = some (sd, tr) ∧ m.applyMove sd mv = some r.1 ∧
      r.2 = trUpd mv r.1.1 tr := by
  unfold Maze.walk at h
  rw [walkT_append] at h
  cases hw : m.walkT (m.start, Direction.Right) [m.start] ms with
  | none => rw [hw] at h; simp at h
  | some pr =>
    rw [hw] at h
    simp only [Option.some_bind] at h
    cases ha : m.applyMove pr.1 mv with
    | none => simp [Maze.walkT, ha] at h
    | some s' =>
      simp only [Maze.walkT, ha] at h
      obtain ⟨rfl⟩ := h
      exact ⟨pr.1, pr.2, by rw [← hw]; rfl, ha, rfl⟩

theorem movesCost_snoc (ms : List Move) (mv : Move) :
    movesCost (ms ++ [mv]) = movesCost ms + moveCost mv := by
  rw [movesCost_append]
  simp [movesCost]

theorem Sound_push {m : Maze} {e : State} (hs : m.Sound e) {mv : Move} {sd' : SD}
    (ha : m.applyMove (e.position, e.direction) mv = some sd') :
    m.Sound ⟨e.cost + moveCost mv, sd'.1, sd'.2, trUpd mv sd'.1 e.path⟩ := by
  obtain ⟨ms, hw, hcost⟩ := hs
  exact ⟨ms ++ [mv], by rw [walk_snoc hw ha], by rw [movesCost_snoc, hcost]⟩

theorem turn_clockwise_cardinal {d d' : Direction}
    (h : d.turn_clockwise = some d') : d'.isCardinal = true := by
  cases d <;> simp [Direction.turn_clockwise] at h <;> subst h <;> rfl

theorem turn_counterclockwise_cardinal {d d' : Direction}
    (h : d.turn_counterclockwise = some d') : d'.isCardinal = true := by
  cases d <;> simp [Direction.turn_counterclockwise] at h <;> subst h <;> rfl

theorem applyMove_fwd_inv {m : Maze} {sd : SD} {sd' : SD}
    (h : m.applyMove sd Move.fwd = some sd') :
    ∃ p t, m.fwdCell sd.1 sd.2 = some p ∧ m.tileAt p.1 p.2 = some t ∧
      t ≠ Tile.Wall ∧ sd' = (p, sd.2) := by
  simp only [Maze.applyMove] at h
  cases hf : m.fwdCell sd.1 sd.2 with
  | none => rw [hf] at h; simp at h
  | some p =>
    rw [hf] at h
    simp only [Option.some_bind] at h
    cases ht : m.tileAt p.1 p.2 with
    | none => rw [ht] at h; simp at h
    | some t =>
      rw [ht] at h
      simp only [Option.some_bind] at h
      by_cases hw : t = Tile.Wall
      · simp [hw] at h
      · simp only [hw, if_false, Option.some.injEq] at h
        exact ⟨p, t, rfl, ht, hw, h.symm⟩

theorem applyMove_cardinal {m : Maze} {sd : SD} {mv : Move} {sd' : SD}
    (h : m.applyMove sd mv = some sd') (hc : sd.2.isCardinal = true) :
    sd'.2.isCardinal = true := by
  cases mv with
  | fwd =>
    obtain ⟨p, t, _, _, _, rfl⟩ := applyMove_fwd_inv h
    exact hc
  | cw =>
    simp only [Maze.applyMove] at h
    cases hturn : sd.2.turn_clockwise with
    | none => rw [hturn] at h; simp at h
    | some d =>
      rw [hturn] at h
      simp only [Option.map_some', Option.some.injEq] at h
      rw [← h]
      exact turn_clockwise_cardinal hturn
  | ccw =>
    simp only [Maze.applyMove] at h
    cases hturn : sd.2.turn_counterclockwise with
    | none => rw [hturn] at h; simp at h
    | some d =>
      rw [hturn] at h
      simp only [Option.map_some', Option.some.injEq] at h
      rw [← h]
      exact turn_counterclockwise_cardinal hturn

theorem walkT_cardinal {m : Maze} (ms : List Move) :
    ∀ (s : SD) (tr : List Pos) (r : SD × List Pos),
    s.2.isCardinal = true → m.walkT s tr ms = some r → r.1.2.isCardinal = true := by
  induction ms with
  | nil =>
    intro s tr r hc h
    simp only [Maze.walkT] at h
    cases h
    exact hc
  | cons mv ms ih =>
    intro s tr r hc h
    simp only [Maze.walkT] at h
    cases ha : m.applyMove s mv with
    | none => rw [ha] at h; simp at h
    | some s' =>
      rw [ha] at h
      exact ih s' _ r (applyMove_cardinal ha hc) h

theorem walk_cardinal {m : Maze} {ms : List Move} {r : SD × List Pos}
    (h : m.walk ms = some r) : r.1.2.isCardinal = true :=
  walkT_cardinal ms (m.start, Direction.Right) [m.start] r rfl h

theorem fwdCell_bounds {m : Maze} {p : Pos} {dir : Direction} {p' : Pos}
    (h : m.fwdCell p dir = some p') : m.InBounds p' := by
  unfold Maze.fwdCell at h
  cases hg : (decide (0 ≤ (p.1 : Int) + dir.delta.1)
      && decide ((p.1 : Int) + dir.delta.1 < (m.rows : Int))
      && decide (0 ≤ (p.2 : Int) + dir.delta.2)
      && decide ((p.2 : Int) + dir.delta.2 < (m.cols : Int))) with
  | false => rw [hg] at h; simp at h
  | true =>
    rw [hg] at h
    simp only [cond_true, Option.some.injEq] at h
    simp only [Bool.and_eq_true, decide_eq_true_eq] at hg
    obtain ⟨⟨⟨h1, h2⟩, h3⟩, h4⟩ := hg
    subst h
    constructor <;> simp only [Maze.InBounds] <;> omega

theorem applyMove_inBounds {m : Maze} {sd : SD} {mv : Move} {sd' : SD}
    (h : m.applyMove sd mv = some sd') (hb : m.InBounds sd.1) :
    m.InBounds sd'.1 := by
  cases mv with
  | fwd =>
    obtain ⟨p, t, hf, _, _, rfl⟩ := applyMove_fwd_inv h
    exact fwdCell_bounds hf
  | cw =>
    simp only [Maze.applyMove] at h
    cases hturn : sd.2.turn_clockwise with
    | none => rw [hturn] at h; simp at h
    | some d =>
      rw [hturn] at h
      simp only [Option.map_some', Option.some.injEq] at h
      rw [← h]
      exact hb
  | ccw =>
    simp only [Maze.applyMove] at h
    cases hturn : sd.2.turn_counterclockwise with
    | none => rw [hturn] at h; simp at h
    | some d =>
      rw [hturn] at h
      simp only [Option.map_some', Option.some.injEq] at h
      rw [← h]
      exact hb

theorem walkT_inBounds {m : Maze} (ms : List Move) :
    ∀ (s : SD) (tr : List Pos) (r : SD × List Pos),
    m.InBounds s.1 → m.walkT s tr ms = some r → m.InBounds r.1.1 := by
  induction ms with
  | nil =>
    intro s tr r hb h
    simp only [Maze.walkT] at h
    cases h
    exact hb
  | cons mv ms ih =>
    intro s tr r hb h
    simp only [Maze.walkT] at h
    cases ha : m.applyMove s mv with
    | none => rw [ha] at h; simp at h
    | some s' =>
      rw [ha] at h
      exact ih s' _ r (applyMove_inBounds ha hb) h

theorem walk_inBounds {m : Maze} {ms : List Move} {r : SD × List Pos}
    (hb : m.InBounds m.start) (h : m.walk ms = some r) : m.InBounds r.1.1 :=
  walkT_inBounds ms _ _ r hb h

theorem stepView (m : Maze) (st : SearchSt) : StepView m st := by
  cases hq : qpop st.queue with
  | none => exact StepView.empty hq (by simp only [Maze.step, hq])
  | some er =>
    obtain ⟨e, rest⟩ := er
    cases hposb : posEq e.position m.«end» with
    | true =>
      refine StepView.goal e rest _ hq (posEq_iff.mp hposb) rfl ?_
      simp only [Maze.step, hq, hposb, cond_true]
    | false =>
      have hpos : e.position ≠ m.«end» := fun hc => by
        rw [hc, posEq_self] at hposb
        exact Bool.noConfusion hposb
      cases hv : visLook st.visited e.position e.direction.idx with
      | none =>
        exact StepView.panicVis e rest hq hpos hv
          (by simp only [Maze.step, hq, hposb, cond_false, hv])
      | some prevOpt =>
        cases prevOpt with
        | none =>
          refine StepView.expand e rest none hq hpos hv
            (by intro prev h; cases h) (by intro prev h; cases h) ?_
          simp only [Maze.step, hq, hposb, cond_false, hv, Option.any]
        | some prev =>
          cases hlt : Nat.blt prev e.cost with
          | true =>
            refine StepView.skip e rest prev hq hpos hv ?_ ?_
            · simpa [Nat.blt_eq] using hlt
            · simp only [Maze.step, hq, hposb, cond_false, hv, Option.any, hlt,
                cond_true]
          | false =>
            cases hc2 : Nat.beq prev e.cost && posMem e.position st.path_tiles with
            | true =>
              have heq : prev = e.cost := Nat.eq_of_beq_eq_true
                (Bool.and_elim_left hc2)
              have hmem : e.position ∈ st.path_tiles :=
                posMem_iff.mp (Bool.and_elim_right hc2)
              refine StepView.skipExtend e rest prev hq hpos hv heq hmem ?_
              simp only [Maze.step, hq, hposb, cond_false, hv, Option.any, hlt,
                hc2, cond_true]
            | false =>
              refine StepView.expand e rest (some prev) hq hpos hv ?_ ?_ ?_
              · intro prev' h
                cases h
                have : ¬ prev < e.cost := by
                  rw [← Nat.blt_eq]
                  simp [hlt]
                omega
              · intro prev' h
                cases h
                intro hpe hmem
                simp [hpe, posMem_iff.mpr hmem] at hc2
              · simp only [Maze.step, hq, hposb, cond_false, hv, Option.any, hlt,
                  hc2]

theorem pushTurns_next_inv {st : SearchSt} {e : State} {vis' : VisArr}
    {q1 : Frontier} {st' : SearchSt}
    (h : Maze.pushTurns st e vis' q1 = StepRes.next st') :
    ∃ dcw dccw, e.direction.turn_clockwise = some dcw ∧
      e.direction.turn_counterclockwise = some dccw ∧
      st' = { st with visited := vis'
                      queue := qpush ⟨e.cost + 1000, e.position, dccw, e.path⟩
                        (qpush ⟨e.cost + 1000, e.position, dcw, e.path⟩ q1) } := by
  unfold Maze.pushTurns at h
  cases hcw : e.direction.turn_clockwise with
  | none =>
    cases hccw : e.direction.turn_counterclockwise with
    | none => simp [hcw, hccw] at h
    | some dccw => simp [hcw, hccw] at h
  | some dcw =>
    cases hccw : e.direction.turn_counterclockwise with
    | none => simp [hcw, hccw] at h
    | some dccw =>
      simp only [hcw, hccw] at h
      cases h
      exact ⟨dcw, dccw, rfl, rfl, rfl⟩

theorem expand_next_inv {m : Maze} {st : SearchSt} {e : State} {rest : Frontier}
    {st' : SearchSt} (h : m.expand st e rest = StepRes.next st') :
    ∃ dcw dccw q1,
      e.direction.turn_clockwise = some dcw ∧
      e.direction.turn_counterclockwise = some dccw ∧
      st' = { st with visited := setVis st.visited e.position e.direction.idx e.cost
                      queue := qpush ⟨e.cost + 1000, e.position, dccw, e.path⟩
                        (qpush ⟨e.cost + 1000, e.position, dcw, e.path⟩ q1) } ∧
      ((∃ p, m.applyMove (e.position, e.direction) Move.fwd = some (p, e.direction) ∧
          q1 = qpush ⟨e.cost + 1, p, e.direction, e.path ++ [p]⟩ rest) ∨
       (m.applyMove (e.position, e.direction) Move.fwd = none ∧ q1 = rest)) := by
  unfold Maze.expand at h
  cases hf : m.fwdCell e.position e.direction with
  | none =>
    simp only [hf] at h
    obtain ⟨dcw, dccw, h1, h2, h3⟩ := pushTurns_next_inv h
    refine ⟨dcw, dccw, rest, h1, h2, h3, Or.inr ⟨?_, rfl⟩⟩
    simp [Maze.applyMove, hf]
  | some p =>
    simp only [hf] at h
    cases ht : m.tileAt p.1 p.2 with
    | none =>
      simp only [ht] at h
      cases h
    | some t =>
      simp only [ht] at h
      by_cases hw : t = Tile.Wall
      · rw [if_neg (by simp [hw])] at h
        obtain ⟨dcw, dccw, h1, h2, h3⟩ := pushTurns_next_inv h
        refine ⟨dcw, dccw, rest, h1, h2, h3, Or.inr ⟨?_, rfl⟩⟩
        simp [Maze.applyMove, hf, ht, hw]
      · rw [if_pos (by simp [hw])] at h
        obtain ⟨dcw, dccw, h1, h2, h3⟩ := pushTurns_next_inv h
        refine ⟨dcw, dccw, _, h1, h2, h3, Or.inl ⟨p, ?_, rfl⟩⟩
        simp [Maze.applyMove, hf, ht, hw]

theorem idx_inj {d d' : Direction} (h : d.idx = d'.idx) : d = d' := by
  cases d <;> cases d' <;> first | rfl | (simp [Direction.idx] at h)

theorem VisShape_setVis {m : Maze} {vis : VisArr} {p : Pos} {d : Nat} {v : Nat}
    (h : m.VisShape vis) : m.VisShape (setVis vis p d v) := by
  obtain ⟨hlen, hrows, hcells⟩ := h
  refine ⟨?_, ?_, ?_⟩
  · rw [setVis, length_updAt, hlen]
  · intro row hrow
    rcases mem_updAt hrow with hmem | ⟨row0, hmem, rfl⟩
    · exact hrows row hmem
    · rw [length_updAt]
      exact hrows row0 hmem
  · intro row hrow cell hcell
    rcases mem_updAt hrow with hmem | ⟨row0, hmem, rfl⟩
    · exact hcells row hmem cell hcell
    · rcases mem_updAt hcell with hmem2 | ⟨cell0, hmem2, rfl⟩
      · exact hcells row0 hmem cell hmem2
      · rw [length_updAt]
        exact hcells row0 hmem cell0 hmem2

theorem mem_flat_rest {q : Frontier} {e : State} {rest : Frontier}
    (hq : qpop q = some (e, rest)) {x : State} (hx : x ∈ flatQ rest) :
    x ∈ flatQ q := by
  rw [qpop_flat hq]
  exact List.mem_cons_of_mem e hx

theorem head_mem_flat {q : Frontier} {e : State} {rest : Frontier}
    (hq : qpop q = some (e, rest)) : e ∈ flatQ q := by
  rw [qpop_flat hq]
  exact List.mem_cons_self e _

theorem RelaxedTo_mono_state (m : Maze) (st st' : SearchSt)
    (hvis : ∀ p d w, visLook st.visited p d = some (some w) →
      ∃ w', w' ≤ w ∧ visLook st'.visited p d = some (some w'))
    (hqueue : ∀ e ∈ flatQ st.queue, e ∈ flatQ st'.queue ∨
      (∃ v, v ≤ e.cost ∧
        visLook st'.visited e.position e.direction.idx = some (some v)) ∨
      (e.position = m.«end» ∧ ∃ F, F ≤ e.cost ∧ st'.final_cost = some F))
    (hfin : ∀ F, st.final_cost = some F → st'.final_cost = some F) :
    ∀ b s, RelaxedTo m st b s → RelaxedTo m st' b s := by
  intro b s h
  rcases h with ⟨v, hv, hvb⟩ | ⟨e, he, h1, h2, h3⟩ | ⟨h1, F, h2, h3⟩
  · obtain ⟨w', hw', hl⟩ := hvis _ _ _ hv
    exact Or.inl ⟨w', hl, le_trans hw' hvb⟩
  · rcases hqueue e he with hmem | ⟨v, hvle, hl⟩ | ⟨hpos, F, hFle, hFeq⟩
    · exact Or.inr (Or.inl ⟨e, hmem, h1, h2, h3⟩)
    · refine Or.inl ⟨v, ?_, le_trans hvle h3⟩
      rw [← h1, ← h2]
      exact hl
    · exact Or.inr (Or.inr ⟨h1 ▸ hpos, F, hFeq, le_trans hFle h3⟩)
  · exact Or.inr (Or.inr ⟨h1, F, hfin F h2, h3⟩)

theorem Inv_step {m : Maze} {st st' : SearchSt} (hInv : Inv m st)
    (hstep : m.step st = StepRes.next st') : Inv m st' := by
  cases stepView m st with
  | empty hq hs =>
    rw [hs] at hstep
    cases hstep
  | panicVis e rest hq hpos hv hs =>
    rw [hs] at hstep
    cases hstep
  | goal e rest final' hq hpos hf hs =>
    have hmemE : e ∈ flatQ st.queue := head_mem_flat hq
    have hfinal' : ∃ F', final' = some F' ∧ F' ≤ e.cost ∧
        (∀ f, st.final_cost = some f → F' = f) := by
      cases hsf : st.final_cost with
      | none =>
        exact ⟨e.cost, by rw [hf, hsf], le_refl _, fun f hff => by cases hff⟩
      | some f =>
        exact ⟨f, by rw [hf, hsf], hInv.finalLe f hsf e hmemE,
          fun f' hff => by cases hff; rfl⟩
    obtain ⟨F', hF'eq, hF'le, hFsome⟩ := hfinal'
    have htrans := RelaxedTo_mono_state m st
      { st with
        queue := rest
        path_tiles := bif final'.any (Nat.beq e.cost) then
            extendTiles st.path_tiles e.path
          else st.path_tiles
        final_cost := final' }
      (fun p d w hw => ⟨w, le_refl w, hw⟩)
      (fun e' he' => by
        rw [qpop_flat hq] at he'
        rcases List.mem_cons.mp he' with rfl | hmem
        · exact Or.inr (Or.inr ⟨hpos, F', hF'le, hF'eq⟩)
        · exact Or.inl hmem)
      (fun f hff => by rw [hF'eq, hFsome f hff])
    rw [hs] at hstep
    cases hstep
    refine ⟨QWF_qpop hInv.wfq hq, hInv.shape, ?_, hInv.visSound, ?_, ?_, ?_, ?_, ?_, ?_⟩
    · exact fun x hx => hInv.sound x (mem_flat_rest hq hx)
    · exact fun p d v hvl mv s' ha => htrans _ _ (hInv.relax p d v hvl mv s' ha)
    · exact htrans _ _ hInv.startRelax
    · intro F hF x hx
      rw [hF'eq] at hF
      cases hF
      have he : e.cost ≤ x.cost := qpop_min hInv.wfq hq x hx
      omega
    · intro F hF
      rw [hF'eq] at hF
      cases hF
      cases hsf : st.final_cost with
      | none =>
        obtain ⟨ms, hw, hc⟩ := hInv.sound e hmemE
        have hFe : F' = e.cost := by
          rw [hf, hsf] at hF'eq
          cases hF'eq
          rfl
        exact ⟨ms, (e.position, e.direction), e.path, hw, hpos, by rw [hc, hFe]⟩
      | some f =>
        rw [hFsome f hsf]
        exact hInv.finalSound f hsf
    · exact fun p d v hvl x hx => hInv.visLe p d v hvl x (mem_flat_rest hq hx)
    · intro hnone
      rw [hF'eq] at hnone
      cases hnone
  | skip e rest prev hq hpos hv hlt hs =>
    have htrans := RelaxedTo_mono_state m st { st with queue := rest }
      (fun p d w hw => ⟨w, le_refl w, hw⟩)
      (fun e' he' => by
        rw [qpop_flat hq] at he'
        rcases List.mem_cons.mp he' with rfl | hmem
        · exact Or.inr (Or.inl ⟨prev, Nat.le_of_lt hlt, hv⟩)
        · exact Or.inl hmem)
      (fun f hff => hff)
    rw [hs] at hstep
    cases hstep
    refine ⟨QWF_qpop hInv.wfq hq, hInv.shape, ?_, hInv.visSound, ?_, ?_, ?_,
      hInv.finalSound, ?_, hInv.tilesEmpty⟩
    · exact fun x hx => hInv.sound x (mem_flat_rest hq hx)
    · exact fun p d v hvl mv s' ha => htrans _ _ (hInv.relax p d v hvl mv s' ha)
    · exact htrans _ _ hInv.startRelax
    · exact fun F hF x hx => hInv.finalLe F hF x (mem_flat_rest hq hx)
    · exact fun p d v hvl x hx => hInv.visLe p d v hvl x (mem_flat_rest hq hx)
  | skipExtend e rest prev hq hpos hv heq hmem hs =>
    have htrans := RelaxedTo_mono_state m st
      { st with
        queue := rest
        path_tiles := extendTiles st.path_tiles e.path }
      (fun p d w hw => ⟨w, le_refl w, hw⟩)
      (fun e' he' => by
        rw [qpop_flat hq] at he'
        rcases List.mem_cons.mp he' with rfl | hmem'
        · exact Or.inr (Or.inl ⟨prev, le_of_eq heq, hv⟩)
        · exact Or.inl hmem')
      (fun f hff => hff)
    rw [hs] at hstep
    cases hstep
    refine ⟨QWF_qpop hInv.wfq hq, hInv.shape, ?_, hInv.visSound, ?_, ?_, ?_,
      hInv.finalSound, ?_, ?_⟩
    · exact fun x hx => hInv.sound x (mem_flat_rest hq hx)
    · exact fun p d v hvl mv s' ha => htrans _ _ (hInv.relax p d v hvl mv s' ha)
    · exact htrans _ _ hInv.startRelax
    · exact fun F hF x hx => hInv.finalLe F hF x (mem_flat_rest hq hx)
    · exact fun p d v hvl x hx => hInv.visLe p d v hvl x (mem_flat_rest hq hx)
    · intro hnone
      have := hInv.tilesEmpty hnone
      rw [this] at hmem
      cases hmem
  | expand e rest prevOpt hq hpos hv hge hnm hs =>
    rw [hs] at hstep
    obtain ⟨dcw, dccw, q1, hcw, hccw, hst', hfwd⟩ := expand_next_inv hstep
    have hmemE : e ∈ flatQ st.queue := head_mem_flat hq
    have hsoundE := hInv.sound e hmemE
    have hq1mem : ∀ x, x ∈ flatQ q1 ↔
        ((∃ p, m.applyMove (e.position, e.direction) Move.fwd = some (p, e.direction) ∧
          x = ⟨e.cost + 1, p, e.direction, e.path ++ [p]⟩) ∨ x ∈ flatQ rest) := by
      intro x
      rcases hfwd with ⟨p, ha, rfl⟩ | ⟨ha, rfl⟩
      · rw [mem_flatQ_qpush]
        constructor
        · rintro (rfl | hx)
          · exact Or.inl ⟨p, ha, rfl⟩
          · exact Or.inr hx
        · rintro (⟨p', ha', rfl⟩ | hx)
          · rw [ha] at ha'
            cases ha'
            exact Or.inl rfl
          · exact Or.inr hx
      · constructor
        · intro hx
          exact Or.inr hx
        · rintro (⟨p', ha', rfl⟩ | hx)
          · rw [ha] at ha'
            cases ha'
          · exact hx
    have hnewvis : visLook (setVis st.visited e.position e.direction.idx e.cost)
        e.position e.direction.idx = some (some e.cost) :=
      visLook_setVis_self e.cost hv
    have holdvis : ∀ p d, (¬ (e.position = p ∧ e.direction.idx = d)) →
        visLook (setVis st.visited e.position e.direction.idx e.cost) p d
          = visLook st.visited p d := by
      intro p d hne
      apply visLook_setVis_ne
      by_cases h1 : e.position = p
      · exact Or.inr fun h2 => hne ⟨h1, h2⟩
      · exact Or.inl h1
    subst hst'
    have htrans := RelaxedTo_mono_state m st
      { st with
        visited := setVis st.visited e.position e.direction.idx e.cost
        queue := qpush ⟨e.cost + 1000, e.position, dccw, e.path⟩
          (qpush ⟨e.cost + 1000, e.position, dcw, e.path⟩ q1) }
      (fun p d w hw => by
        by_cases hk : e.position = p ∧ e.direction.idx = d
        · obtain ⟨hk1, hk2⟩ := hk
          rw [← hk1, ← hk2] at hw
          rw [hv] at hw
          cases hw
          refine ⟨e.cost, hge _ rfl, ?_⟩
          rw [← hk1, ← hk2]
          exact hnewvis
        · exact ⟨w, le_refl w, by rw [holdvis p d hk]; exact hw⟩)
      (fun e' he' => by
        rw [qpop_flat hq] at he'
        rcases List.mem_cons.mp he' with heq | hmem
        · rw [heq]
          exact Or.inr (Or.inl ⟨e.cost, le_refl _, hnewvis⟩)
        · refine Or.inl ?_
          rw [mem_flatQ_qpush]
          refine Or.inr ?_
          rw [mem_flatQ_qpush]
          refine Or.inr ?_
          rw [hq1mem]
          exact Or.inr hmem)
      (fun f hff => hff)
    have hwfq1 : QWF q1 := by
      rcases hfwd with ⟨p, ha, rfl⟩ | ⟨ha, rfl⟩
      · exact QWF_qpush (QWF_qpop hInv.wfq hq)
      · exact QWF_qpop hInv.wfq hq
    refine ⟨QWF_qpush (QWF_qpush hwfq1), VisShape_setVis hInv.shape, ?_, ?_, ?_, ?_,
      ?_, hInv.finalSound, ?_, hInv.tilesEmpty⟩
    · -- sound
      intro x hx
      rw [mem_flatQ_qpush] at hx
      rcases hx with rfl | hx
      · have ha : m.applyMove (e.position, e.direction) Move.ccw
            = some (e.position, dccw) := by
          simp [Maze.applyMove, hccw]
        exact Sound_push hsoundE ha
      · rw [mem_flatQ_qpush] at hx
        rcases hx with rfl | hx
        · have ha : m.applyMove (e.position, e.direction) Move.cw
              = some (e.position, dcw) := by
            simp [Maze.applyMove, hcw]
          exact Sound_push hsoundE ha
        · rw [hq1mem] at hx
          rcases hx with ⟨p, ha, rfl⟩ | hx
          · have := Sound_push hsoundE ha
            simpa [trUpd] using this
          · exact hInv.sound x (mem_flat_rest hq hx)
    · -- visSound
      intro p d v hvl
      by_cases hk : e.position = p ∧ e.direction.idx = Direction.idx d
      · obtain ⟨hk1, hk2⟩ := hk
        have hd : e.direction = d := idx_inj hk2
        rw [← hk1, ← hk2] at hvl
        rw [hnewvis] at hvl
        cases hvl
        obtain ⟨ms, hw, hc⟩ := hsoundE
        exact ⟨hk1 ▸ hpos, ms, e.path, by rw [← hk1, ← hd]; exact hw, hc⟩
      · rw [holdvis p (Direction.idx d) hk] at hvl
        exact hInv.visSound p d v hvl
    · -- relax
      intro p d v hvl mv s' ha
      by_cases hk : e.position = p ∧ e.direction.idx = Direction.idx d
      · obtain ⟨hk1, hk2⟩ := hk
        have hd : e.direction = d := idx_inj hk2
        rw [← hk1, ← hk2] at hvl
        rw [hnewvis] at hvl
        cases hvl
        rw [← hk1, ← hd] at ha
        refine Or.inr (Or.inl ?_)
        cases mv with
        | fwd =>
          rcases hfwd with ⟨p', ha', rfl⟩ | ⟨ha', _⟩
          · rw [ha'] at ha
            cases ha
            refine ⟨⟨e.cost + 1, p', e.direction, e.path ++ [p']⟩, ?_, rfl, rfl, ?_⟩
            · rw [mem_flatQ_qpush]
              refine Or.inr ?_
              rw [mem_flatQ_qpush]
              refine Or.inr ?_
              rw [mem_flatQ_qpush]
              exact Or.inl rfl
            · simp [moveCost]
          · rw [ha'] at ha
            cases ha
        | cw =>
          have : s' = (e.position, dcw) := by
            simp only [Maze.applyMove, hcw, Option.map_some', Option.some.injEq] at ha
            exact ha.symm
          subst this
          refine ⟨⟨e.cost + 1000, e.position, dcw, e.path⟩, ?_, rfl, rfl, ?_⟩
          · rw [mem_flatQ_qpush]
            refine Or.inr ?_
            rw [mem_flatQ_qpush]
            exact Or.inl rfl
          · simp [moveCost]
        | ccw =>
          have : s' = (e.position, dccw) := by
            simp only [Maze.applyMove, hccw, Option.map_some', Option.some.injEq] at ha
            exact ha.symm
          subst this
          refine ⟨⟨e.cost + 1000, e.position, dccw, e.path⟩, ?_, rfl, rfl, ?_⟩
          · rw [mem_flatQ_qpush]
            exact Or.inl rfl
          · simp [moveCost]
      · rw [holdvis p (Direction.idx d) hk] at hvl
        exact htrans _ _ (hInv.relax p d v hvl mv s' ha)
    · -- startRelax
      exact htrans _ _ hInv.startRelax
    · -- finalLe
      intro F hF x hx
      have hFe : F ≤ e.cost := hInv.finalLe F hF e hmemE
      rw [mem_flatQ_qpush] at hx
      rcases hx with rfl | hx
      · show F ≤ e.cost + 1000
        omega
      · rw [mem_flatQ_qpush] at hx
        rcases hx with rfl | hx
        · show F ≤ e.cost + 1000
          omega
        · rw [hq1mem] at hx
          rcases hx with ⟨p, ha, rfl⟩ | hx
          · show F ≤ e.cost + 1
            omega
          · exact hInv.finalLe F hF x (mem_flat_rest hq hx)
    · -- visLe
      intro p d v hvl x hx
      have hvnew : v ≤ e.cost ∨ (∃ w, visLook st.visited p d = some (some w) ∧ v ≤ w) := by
        by_cases hk : e.position = p ∧ e.direction.idx = d
        · obtain ⟨hk1, hk2⟩ := hk
          rw [← hk1, ← hk2] at hvl
          rw [hnewvis] at hvl
          cases hvl
          exact Or.inl (le_refl _)
        · rw [holdvis p d hk] at hvl
          exact Or.inr ⟨v, hvl, le_refl _⟩
      have hxcost : e.cost ≤ x.cost := by
        rw [mem_flatQ_qpush] at hx
        rcases hx with rfl | hx
        · show e.cost ≤ e.cost + 1000
          omega
        · rw [mem_flatQ_qpush] at hx
          rcases hx with rfl | hx
          · show e.cost ≤ e.cost + 1000
            omega
          · rw [hq1mem] at hx
            rcases hx with ⟨p', ha, rfl⟩ | hx
            · show e.cost ≤ e.cost + 1
              omega
            · exact qpop_min hInv.wfq hq x hx
      rcases hvnew with h1 | ⟨w, hw, hvw⟩
      · omega
      · have hwe : w ≤ e.cost := hInv.visLe p d w hw e hmemE
        omega

theorem get?_replicate {α : Type} (a : α) (n i : Nat) :
    (List.replicate n a).get? i = if i < n then some a else none := by
  induction n generalizing i with
  | zero => cases i <;> rfl
  | succ k ih =>
    cases i with
    | zero => simp [List.replicate]
    | succ j =>
      simp only [List.replicate, List.get?]
      rw [ih j]
      by_cases h : j < k
      · rw [if_pos h, if_pos (by omega)]
      · rw [if_neg h, if_neg (by omega)]

theorem visLook_init {m : Maze} {p : Pos} {d : Nat} {v : Nat} :
    visLook m.initSt.visited p d ≠ some (some v) := by
  intro h
  unfold Maze.initSt at h
  rw [visLook_eq_bind] at h
  rw [get?_replicate] at h
  by_cases h1 : p.1 < m.rows
  · rw [if_pos h1] at h
    simp only [Option.some_bind] at h
    rw [get?_replicate] at h
    by_cases h2 : p.2 < m.cols
    · rw [if_pos h2] at h
      simp only [Option.some_bind] at h
      rw [get?_replicate] at h
      by_cases h3 : d < 4
      · rw [if_pos h3] at h
        cases h
      · rw [if_neg h3] at h
        cases h
    · rw [if_neg h2] at h
      cases h
  · rw [if_neg h1] at h
    cases h

theorem Inv_init (m : Maze) : Inv m m.initSt := by
  refine ⟨?_, ?_, ?_, ?_, ?_, ?_, ?_, ?_, ?_, ?_⟩
  · constructor
    · intro cb hcb x hx
      simp only [Maze.initSt, List.mem_singleton] at hcb
      subst hcb
      simp only [List.mem_singleton] at hx
      subst hx
      rfl
    · simp [Maze.initSt]
  · refine ⟨?_, ?_, ?_⟩
    · simp [Maze.initSt, Maze.rows]
    · intro row hrow
      simp only [Maze.initSt] at hrow
      rw [List.eq_of_mem_replicate hrow]
      simp
    · intro row hrow cell hcell
      simp only [Maze.initSt] at hrow
      rw [List.eq_of_mem_replicate hrow] at hcell
      rw [List.eq_of_mem_replicate hcell]
      simp
  · intro e he
    simp only [Maze.initSt, flatQ, List.append_nil] at he
    rw [List.mem_singleton] at he
    subst he
    exact ⟨[], rfl, rfl⟩
  · intro p d v hv
    exact absurd hv visLook_init
  · intro p d v hv
    exact absurd hv visLook_init
  · refine Or.inr (Or.inl ⟨⟨0, m.start, Direction.Right, [m.start]⟩, ?_, rfl, rfl, le_refl 0⟩)
    simp [Maze.initSt, flatQ]
  · intro F hF
    cases hF
  · intro F hF
    cases hF
  · intro p d v hv
    exact absurd hv visLook_init
  · intro _
    rfl

theorem pushTurns_ne_done {st : SearchSt} {e : State} {vis' : VisArr}
    {q1 : Frontier} {r : Option (Nat × Nat)} :
    Maze.pushTurns st e vis' q1 ≠ StepRes.done r := by
  unfold Maze.pushTurns
  cases e.direction.turn_clockwise <;> cases e.direction.turn_counterclockwise <;>
    simp

theorem expand_ne_done {m : Maze} {st : SearchSt} {e : State} {rest : Frontier}
    {r : Option (Nat × Nat)} : m.expand st e rest ≠ StepRes.done r := by
  intro h
  unfold Maze.expand at h
  cases hf : m.fwdCell e.position e.direction with
  | none =>
    simp only [hf] at h
    exact pushTurns_ne_done h
  | some p =>
    simp only [hf] at h
    cases ht : m.tileAt p.1 p.2 with
    | none =>
      simp only [ht] at h
      cases h
    | some t =>
      simp only [ht] at h
      exact pushTurns_ne_done h

theorem runLoop_done {m : Maze} : ∀ (fuel : Nat) (st : SearchSt)
    (r : Option (Nat × Nat)) (stF : SearchSt),
    Inv m st → m.runLoop fuel st = RunOut.done r stF →
    Inv m stF ∧ flatQ stF.queue = [] ∧
      r = stF.final_cost.map fun c => (c, stF.path_tiles.length) := by
  intro fuel
  induction fuel with
  | zero =>
    intro st r stF hInv h
    cases h
  | succ n ih =>
    intro st r stF hInv h
    unfold Maze.runLoop at h
    cases hs : m.step st with
    | panic => rw [hs] at h; cases h
    | done r' =>
      rw [hs] at h
      cases h
      cases stepView m st with
      | empty hq hs2 =>
        rw [hs] at hs2
        cases hs2
        exact ⟨hInv, qpop_none hq, rfl⟩
      | goal e rest final' hq hpos hf hs2 => rw [hs] at hs2; cases hs2
      | panicVis e rest hq hpos hv hs2 => rw [hs] at hs2; cases hs2
      | skip e rest prev hq hpos hv hlt hs2 => rw [hs] at hs2; cases hs2
      | skipExtend e rest prev hq hpos hv heq hmem hs2 => rw [hs] at hs2; cases hs2
      | expand e rest prevOpt hq hpos hv hge hnm hs2 =>
        rw [hs] at hs2
        exact absurd hs2.symm expand_ne_done
    | next st' =>
      rw [hs] at h
      exact ih st' r stF (Inv_step hInv hs) h

theorem chainK {m : Maze} {st : SearchSt} (hInv : Inv m st)
    (hq : flatQ st.queue = []) :
    ∀ (ms : List Move) (sd : SD) (tr : List Pos), m.walk ms = some (sd, tr) →
    (∃ v, visLook st.visited sd.1 sd.2.idx = some (some v) ∧ v ≤ movesCost ms) ∨
    (∃ F, st.final_cost = some F ∧ F ≤ movesCost ms) := by
  intro ms
  induction ms using List.reverseRecOn with
  | nil =>
    intro sd tr hw
    have hsd : sd = (m.start, Direction.Right) := by
      unfold Maze.walk Maze.walkT at hw
      cases hw
      rfl
    subst hsd
    rcases hInv.startRelax with ⟨v, hv, hvb⟩ | ⟨e, he, _⟩ | ⟨h1, F, h2, h3⟩
    · exact Or.inl ⟨v, hv, by simpa [movesCost] using hvb⟩
    · rw [hq] at he
      cases he
    · exact Or.inr ⟨F, h2, by simpa [movesCost] using h3⟩
  | append_singleton ms mv ih =>
    intro sd tr hw
    obtain ⟨sd0, tr0, hw0, ha, htr⟩ := walk_snoc_inv hw
    rcases ih sd0 tr0 hw0 with ⟨v, hv, hvb⟩ | ⟨F, h2, h3⟩
    · rcases hInv.relax sd0.1 sd0.2 v hv mv sd ha with
        ⟨v', hv', hb'⟩ | ⟨e, he, _⟩ | ⟨h1, F, h2, h3'⟩
      · refine Or.inl ⟨v', hv', ?_⟩
        rw [movesCost_snoc]
        omega
      · rw [hq] at he
        cases he
      · refine Or.inr ⟨F, h2, ?_⟩
        rw [movesCost_snoc]
        omega
    · refine Or.inr ⟨F, h2, ?_⟩
      rw [movesCost_snoc]
      have := moveCost mv
      omega

/-- C1: optimality of the day-16 search.  For every maze parsed by
Maze::from_str with at least one row, if find_all_best_paths returns
Some((c, n)) then c is at most the accumulated cost of every sequence of
moves (forward 1, turns 1000, walls impassable) leading from the start
cell facing Right to the end cell. -/
theorem C1_optimality (lines : List (List Char)) (m : Maze) (fuel c n : Nat)
    (hparse : Maze.from_str lines = some (Except.ok m))
    (hrows : m.grid ≠ [])
    (hrun : m.find_all_best_paths fuel = RunRes.done (some (c, n)))
    (ms : List Move) (sd : SD) (tr : List Pos)
    (hwalk : m.walk ms = some (sd, tr)) (hend : sd.1 = m.«end») :
    c ≤ movesCost ms := by
  unfold Maze.find_all_best_paths at hrun
  rw [if_neg hrows] at hrun
  cases hr : m.runLoop fuel m.initSt with
  | panic => rw [hr] at hrun; cases hrun
  | out => rw [hr] at hrun; cases hrun
  | done r stF =>
    rw [hr] at hrun
    cases hrun
    obtain ⟨hInvF, hflat, hrF⟩ := runLoop_done fuel m.initSt _ stF (Inv_init m) hr
    have hF : stF.final_cost = some c := by
      cases hsf : stF.final_cost with
      | none => rw [hsf] at hrF; cases hrF
      | some F =>
        rw [hsf] at hrF
        simp only [Option.map_some'] at hrF
        cases hrF
        rfl
    rcases chainK hInvF hflat ms sd tr hwalk with ⟨v, hv, _⟩ | ⟨F, h2, h3⟩
    · exact absurd hend (hInvF.visSound sd.1 sd.2 v hv).1
    · rw [hF] at h2
      cases h2
      exact h3

/-- Witness for C1 at the two-cell maze SE: the search returns cost 1
and the single forward move has cost 1. -/
theorem C1_witness :
    (Maze.from_str [['S', 'E']] =
        some (Except.ok { grid := [[Tile.Start, Tile.End]]
                          start := (0, 0)
                          «end» := (0, 1) }) ∧
      ({ grid := [[Tile.Start, Tile.End]], start := (0, 0), «end» := (0, 1) }
        : Maze).grid ≠ [] ∧
      Maze.find_all_best_paths
        { grid := [[Tile.Start, Tile.End]], start := (0, 0), «end» := (0, 1) } 30
        = RunRes.done (some (1, 2)) ∧
      Maze.walk { grid := [[Tile.Start, Tile.End]], start := (0, 0), «end» := (0, 1) }
        [Move.fwd] = some ((((0, 1), Direction.Right) : SD), [(0, 0), (0, 1)])) ∧
    1 ≤ movesCost [Move.fwd] :=
  ⟨⟨by decide, by decide, by decide, by decide⟩,
    C1_optimality [['S', 'E']]
      { grid := [[Tile.Start, Tile.End]], start := (0, 0), «end» := (0, 1) }
      30 1 2 (by decide) (by decide) (by decide)
      [Move.fwd] (((0, 1), Direction.Right) : SD) [(0, 0), (0, 1)] (by decide)
      (by decide)⟩

theorem step_vis_mono {m : Maze} {st st' : SearchSt}
    (hstep : m.step st = StepRes.next st') {p : Pos} {d : Nat} {v : Nat}
    (hv : visLook st.visited p d = some (some v)) :
    ∃ v', v' ≤ v ∧ visLook st'.visited p d = some (some v') := by
  cases stepView m st with
  | empty hq hs =>
    rw [hs] at hstep
    cases hstep
  | panicVis e rest hq hpos hv2 hs =>
    rw [hs] at hstep
    cases hstep
  | goal e rest final' hq hpos hf hs =>
    rw [hs] at hstep
    cases hstep
    exact ⟨v, le_refl v, hv⟩
  | skip e rest prev hq hpos hv2 hlt hs =>
    rw [hs] at hstep
    cases hstep
    exact ⟨v, le_refl v, hv⟩
  | skipExtend e rest prev hq hpos hv2 heq hmem hs =>
    rw [hs] at hstep
    cases hstep
    exact ⟨v, le_refl v, hv⟩
  | expand e rest prevOpt hq hpos hv2 hge hnm hs =>
    rw [hs] at hstep
    obtain ⟨dcw, dccw, q1, hcw, hccw, hst', hfwd⟩ := expand_next_inv hstep
    by_cases hk : p = e.position ∧ d = e.direction.idx
    · obtain ⟨hk1, hk2⟩ := hk
      subst hk1
      subst hk2
      rw [hv] at hv2
      cases hv2
      refine ⟨e.cost, hge v rfl, ?_⟩
      rw [hst']
      exact visLook_setVis_self e.cost hv
    · refine ⟨v, le_refl v, ?_⟩
      have hne : e.position ≠ p ∨ e.direction.idx ≠ d := by
        rcases not_and_or.mp hk with h | h
        · exact Or.inl (Ne.symm h)
        · exact Or.inr (Ne.symm h)
      rw [hst']
      exact (visLook_setVis_ne e.cost hne).trans hv

theorem iterN_vis_mono {m : Maze} (k : Nat) :
    ∀ {st st' : SearchSt}, m.iterN k st = some st' →
    ∀ p d v, visLook st.visited p d = some (some v) →
    ∃ v', v' ≤ v ∧ visLook st'.visited p d = some (some v') := by
  induction k with
  | zero =>
    intro st st' h p d v hv
    cases h
    exact ⟨v, le_refl v, hv⟩
  | succ n ih =>
    intro st st' h p d v hv
    unfold Maze.iterN at h
    cases hs : m.step st with
    | panic => rw [hs] at h; cases h
    | done r => rw [hs] at h; cases h
    | next st1 =>
      rw [hs] at h
      obtain ⟨v1, hle1, hl1⟩ := step_vis_mono hs hv
      obtain ⟨v', hle', hl'⟩ := ih h p d v1 hl1
      exact ⟨v', le_trans hle' hle1, hl'⟩

theorem Inv_iterN {m : Maze} (k : Nat) :
    ∀ {st st' : SearchSt}, Inv m st → m.iterN k st = some st' → Inv m st' := by
  induction k with
  | zero =>
    intro st st' hInv h
    cases h
    exact hInv
  | succ n ih =>
    intro st st' hInv h
    unfold Maze.iterN at h
    cases hs : m.step st with
    | panic => rw [hs] at h; cases h
    | done r => rw [hs] at h; cases h
    | next st1 =>
      rw [hs] at h
      exact ih (Inv_step hInv hs) h

/-- C6: monotonic best-cost map.  Along any run of find_all_best_paths
(the loop states reached from the initial state by iterating the loop
body), once the visited array records a cost for a
(row, column, direction) key, every later loop state of the run records
a cost at most that value for the same key: the recorded best cost never
increases. -/
theorem C6_visited_monotone (m : Maze) (n k : Nat) (st st' : SearchSt)
    (p : Pos) (d : Nat) (v : Nat)
    (hrun : m.iterN n m.initSt = some st)
    (hv : visLook st.visited p d = some (some v))
    (hlater : m.iterN k st = some st') :
    ∃ v', v' ≤ v ∧ visLook st'.visited p d = some (some v') :=
  iterN_vis_mono k hlater p d v hv

/-- Witness for C6 on the two-cell maze SE: after one loop iteration the
start cell facing Right (direction index 3) is recorded at cost 0, and
after one further iteration a cost at most 0 is still recorded there. -/
theorem C6_witness :
    (Maze.iterN { grid := [[Tile.Start, Tile.End]], start := (0, 0), «end» := (0, 1) }
        1 (Maze.initSt { grid := [[Tile.Start, Tile.End]], start := (0, 0), «end» := (0, 1) })
      = some { visited := [[[none, none, none, some 0], [none, none, none, none]]]
               queue := [(1, [{ cost := 1, position := (0, 1), direction := Direction.Right, path := [(0, 0), (0, 1)] }]),
                         (1000, [{ cost := 1000, position := (0, 0), direction := Direction.Up, path := [(0, 0)] },
                                 { cost := 1000, position := (0, 0), direction := Direction.Down, path := [(0, 0)] }])]
               path_tiles := []
               final_cost := none } ∧
     visLook [[[none, none, none, some 0], [none, none, none, none]]] (0, 0) 3
       = some (some 0) ∧
     Maze.iterN { grid := [[Tile.Start, Tile.End]], start := (0, 0), «end» := (0, 1) }
        1 { visited := [[[none, none, none, some 0], [none, none, none, none]]]
            queue := [(1, [{ cost := 1, position := (0, 1), direction := Direction.Right, path := [(0, 0), (0, 1)] }]),
                      (1000, [{ cost := 1000, position := (0, 0), direction := Direction.Up, path := [(0, 0)] },
                              { cost := 1000, position := (0, 0), direction := Direction.Down, path := [(0, 0)] }])]
            path_tiles := []
            final_cost := none }
      = some { visited := [[[none, none, none, some 0], [none, none, none, none]]]
               queue := [(1000, [{ cost := 1000, position := (0, 0), direction := Direction.Up, path := [(0, 0)] },
                                 { cost := 1000, position := (0, 0), direction := Direction.Down, path := [(0, 0)] }])]
               path_tiles := [(0, 0), (0, 1)]
               final_cost := some 1 }) ∧
    (∃ v', v' ≤ 0 ∧
      visLook [[[none, none, none, some 0], [none, none, none, none]]] (0, 0) 3
        = some (some v')) :=
  ⟨⟨by decide, by decide, by decide⟩,
    C6_visited_monotone
      { grid := [[Tile.Start, Tile.End]], start := (0, 0), «end» := (0, 1) } 1 1
      { visited := [[[none, none, none, some 0], [none, none, none, none]]]
        queue := [(1, [{ cost := 1, position := (0, 1), direction := Direction.Right, path := [(0, 0), (0, 1)] }]),
                  (1000, [{ cost := 1000, position := (0, 0), direction := Direction.Up, path := [(0, 0)] },
                          { cost := 1000, position := (0, 0), direction := Direction.Down, path := [(0, 0)] }])]
        path_tiles := []
        final_cost := none }
      { visited := [[[none, none, none, some 0], [none, none, none, none]]]
        queue := [(1000, [{ cost := 1000, position := (0, 0), direction := Direction.Up, path := [(0, 0)] },
                          { cost := 1000, position := (0, 0), direction := Direction.Down, path := [(0, 0)] }])]
        path_tiles := [(0, 0), (0, 1)]
        final_cost := some 1 }
      (0, 0) 3 0 (by decide) (by decide) (by decide)⟩

theorem cardinal_turns_some {d : Direction} (hd : d.isCardinal = true) :
    (d.turn_clockwise).isSome = true ∧ (d.turn_counterclockwise).isSome = true := by
  cases d <;> simp [Direction.isCardinal] at hd ⊢ <;>
    exact ⟨rfl, rfl⟩

/-- C9: cardinal-direction invariant.  At every loop state of a run of
find_all_best_paths, every State on the frontier has one of the four
cardinal directions, so the turn functions are defined on it: the panic
arms of turn_clockwise and turn_counterclockwise for diagonal directions
are unreachable during the search. -/
theorem C9_frontier_cardinal (m : Maze) (n : Nat) (st : SearchSt)
    (hrun : m.iterN n m.initSt = some st) :
    ∀ e ∈ flatQ st.queue, e.direction.isCardinal = true ∧
      (e.direction.turn_clockwise).isSome = true ∧
      (e.direction.turn_counterclockwise).isSome = true := by
  intro e he
  have hInv := Inv_iterN n (Inv_init m) hrun
  obtain ⟨ms, hw, _⟩ := hInv.sound e he
  have hc : e.direction.isCardinal = true := walk_cardinal hw
  exact ⟨hc, (cardinal_turns_some hc).1, (cardinal_turns_some hc).2⟩

/-- Witness for C9 on the two-cell maze SE after one loop iteration: the
cost-1 frontier entry facing Right is cardinal and both turns are
defined on it. -/
theorem C9_witness :
    (Maze.iterN { grid := [[Tile.Start, Tile.End]], start := (0, 0), «end» := (0, 1) }
        1 (Maze.initSt { grid := [[Tile.Start, Tile.End]], start := (0, 0), «end» := (0, 1) })
      = some { visited := [[[none, none, none, some 0], [none, none, none, none]]]
               queue := [(1, [{ cost := 1, position := (0, 1), direction := Direction.Right, path := [(0, 0), (0, 1)] }]),
                         (1000, [{ cost := 1000, position := (0, 0), direction := Direction.Up, path := [(0, 0)] },
                                 { cost := 1000, position := (0, 0), direction := Direction.Down, path := [(0, 0)] }])]
               path_tiles := []
               final_cost := none } ∧
     ({ cost := 1, position := (0, 1), direction := Direction.Right, path := [(0, 0), (0, 1)] } : State)
       ∈ flatQ [(1, [{ cost := 1, position := (0, 1), direction := Direction.Right, path := [(0, 0), (0, 1)] }]),
                (1000, [{ cost := 1000, position := (0, 0), direction := Direction.Up, path := [(0, 0)] },
                        { cost := 1000, position := (0, 0), direction := Direction.Down, path := [(0, 0)] }])]) ∧
    (Direction.Right.isCardinal = true ∧
      (Direction.Right.turn_clockwise).isSome = true ∧
      (Direction.Right.turn_counterclockwise).isSome = true) :=
  ⟨⟨by decide, by decide⟩,
    C9_frontier_cardinal
      { grid := [[Tile.Start, Tile.End]], start := (0, 0), «end» := (0, 1) } 1
      { visited := [[[none, none, none, some 0], [none, none, none, none]]]
        queue := [(1, [{ cost := 1, position := (0, 1), direction := Direction.Right, path := [(0, 0), (0, 1)] }]),
                  (1000, [{ cost := 1000, position := (0, 0), direction := Direction.Up, path := [(0, 0)] },
                          { cost := 1000, position := (0, 0), direction := Direction.Down, path := [(0, 0)] }])]
        path_tiles := []
        final_cost := none }
      (by decide)
      { cost := 1, position := (0, 1), direction := Direction.Right, path := [(0, 0), (0, 1)] }
      (by decide)⟩

theorem idx_lt_four {d : Direction} (h : d.isCardinal = true) : d.idx < 4 := by
  cases d <;> revert h <;> decide

theorem le_foldr_max {x : Nat} : ∀ {l : List Nat}, x ∈ l → x ≤ l.foldr max 0 := by
  intro l
  induction l with
  | nil => intro h; cases h
  | cons y ys ih =>
    intro h
    rw [List.foldr_cons]
    rcases List.mem_cons.mp h with rfl | h2
    · exact le_max_left _ _
    · exact le_trans (ih h2) (le_max_right _ _)

theorem sum_map_updAt_dec {α : Type} (g : α → Nat) (f : α → α) :
    ∀ (i : Nat) (l : List α) (x : α), l.get? i = some x → g (f x) + 1 = g x →
    ((updAt f i l).map g).sum + 1 = (l.map g).sum := by
  intro i l
  induction l generalizing i with
  | nil => intro x h _; cases i <;> cases h
  | cons y ys ih =>
    intro x h hdec
    cases i with
    | zero =>
      have h0 : y = x := by simpa using h
      subst h0
      simp only [updAt, List.map_cons, List.sum_cons]
      omega
    | succ j =>
      have h' : ys.get? j = some x := by simpa using h
      have hh := ih j x h' hdec
      simp only [updAt, List.map_cons, List.sum_cons]
      omega

theorem visLook_shape_some {m : Maze} {vis : VisArr} {p : Pos} {d : Nat}
    (hsh : m.VisShape vis) (hb : m.InBounds p) (hd : d < 4) :
    ∃ w, visLook vis p d = some w := by
  obtain ⟨hlen, hrows, hcells⟩ := hsh
  obtain ⟨h1, h2⟩ := hb
  cases hrow : vis.get? p.1 with
  | none =>
    rw [List.get?_eq_none] at hrow
    omega
  | some row =>
    have hrowmem : row ∈ vis := List.get?_mem hrow
    cases hcell : row.get? p.2 with
    | none =>
      rw [List.get?_eq_none, hrows row hrowmem] at hcell
      omega
    | some cell =>
      have hcellmem : cell ∈ row := List.get?_mem hcell
      cases hget : cell.get? d with
      | none =>
        rw [List.get?_eq_none, hcells row hrowmem cell hcellmem] at hget
        omega
      | some w =>
        refine ⟨w, ?_⟩
        rw [visLook_eq_bind, hrow, Option.some_bind, hcell, Option.some_bind, hget]

theorem tileAt_rect {m : Maze} {p : Pos} (hrect : m.Rectangular)
    (hb : m.InBounds p) : ∃ t, m.tileAt p.1 p.2 = some t := by
  obtain ⟨h1, h2⟩ := hb
  cases hrow : m.grid.get? p.1 with
  | none =>
    rw [List.get?_eq_none] at hrow
    have h1' : p.1 < m.grid.length := h1
    omega
  | some row =>
    have hm : row ∈ m.grid := List.get?_mem hrow
    have hlen : row.length = m.cols := hrect row hm
    cases ht : row.get? p.2 with
    | none =>
      rw [List.get?_eq_none, hlen] at ht
      omega
    | some t =>
      refine ⟨t, ?_⟩
      unfold Maze.tileAt
      rw [hrow]
      exact ht

theorem maxVis_bound {vis : VisArr} {p : Pos} {d : Nat} {w : Nat}
    (h : visLook vis p d = some (some w)) : w ≤ maxVis vis := by
  rw [visLook_eq_bind] at h
  cases hrow : vis.get? p.1 with
  | none => rw [hrow] at h; simp at h
  | some row =>
    rw [hrow] at h
    simp only [Option.some_bind] at h
    cases hcell : row.get? p.2 with
    | none => rw [hcell] at h; simp at h
    | some cell =>
      rw [hcell] at h
      simp only [Option.some_bind] at h
      have hw : some w ∈ cell := List.get?_mem h
      have h1 : w ≤ (cell.filterMap id).foldr max 0 :=
        le_foldr_max (List.mem_filterMap.mpr ⟨some w, hw, rfl⟩)
      have h2 : (cell.filterMap id).foldr max 0 ≤
          (row.map fun cell => (cell.filterMap id).foldr max 0).foldr max 0 :=
        le_foldr_max (List.mem_map_of_mem _ (List.get?_mem hcell))
      have h3 : (row.map fun cell => (cell.filterMap id).foldr max 0).foldr max 0
          ≤ maxVis vis := by
        unfold maxVis
        exact le_foldr_max (List.mem_map_of_mem _ (List.get?_mem hrow))
      exact le_trans h1 (le_trans h2 h3)

theorem unvisited_setVis_none {vis : VisArr} {p : Pos} {d : Nat}
    (h : visLook vis p d = some none) (v : Nat) :
    unvisited (setVis vis p d v) + 1 = unvisited vis := by
  rw [visLook_eq_bind] at h
  cases hrow : vis.get? p.1 with
  | none => rw [hrow] at h; simp at h
  | some row =>
    rw [hrow] at h
    simp only [Option.some_bind] at h
    cases hcell : row.get? p.2 with
    | none => rw [hcell] at h; simp at h
    | some cell =>
      rw [hcell] at h
      simp only [Option.some_bind] at h
      have e3 : cellNones (updAt (fun _ => some v) d cell) + 1 = cellNones cell := by
        unfold cellNones
        refine sum_map_updAt_dec _ _ d cell none h ?_
        simp
      have e2 : ((updAt (updAt (fun _ => some v) d) p.2 row).map cellNones).sum + 1
          = (row.map cellNones).sum :=
        sum_map_updAt_dec cellNones _ p.2 row cell hcell e3
      unfold unvisited setVis
      exact sum_map_updAt_dec _ _ p.1 vis row hrow e2

theorem phiQ_cons (K c : Nat) (b : List State) (q : Frontier) :
    phiQ K ((c, b) :: q) = (b.map fun e => 4 ^ (K - e.cost)).sum + phiQ K q := by
  simp [phiQ, flatQ]

theorem phiQ_qpush (K : Nat) (e : State) (q : Frontier) :
    phiQ K (qpush e q) = 4 ^ (K - e.cost) + phiQ K q := by
  induction q with
  | nil => simp [qpush, phiQ, flatQ]
  | cons cb rest ih =>
    obtain ⟨c, b⟩ := cb
    unfold qpush
    cases hlt : Nat.blt c e.cost with
    | true =>
      simp only [hlt, cond_true]
      rw [phiQ_cons, ih, phiQ_cons]
      omega
    | false =>
      simp only [hlt, cond_false]
      cases heq : Nat.beq c e.cost with
      | true =>
        simp only [heq, cond_true]
        rw [phiQ_cons, phiQ_cons]
        simp only [List.map_cons, List.sum_cons]
        omega
      | false =>
        simp only [heq, cond_false]
        rw [phiQ_cons, phiQ_cons]
        simp only [List.map_cons, List.map_nil, List.sum_cons, List.sum_nil]
        omega

theorem pow_gap {c K : Nat} (h : c < K) :
    2 * 4 ^ (K - (c + 1000)) + 4 ^ (K - (c + 1)) < 4 ^ (K - c) := by
  have h1 : K - (c + 1000) ≤ K - (c + 1) := by omega
  have h2 : 4 ^ (K - (c + 1000)) ≤ 4 ^ (K - (c + 1)) :=
    Nat.pow_le_pow_right (by norm_num) h1
  have h3 : 0 < 4 ^ (K - (c + 1)) := pow_pos (by norm_num) _
  have h4 : K - c = (K - (c + 1)) + 1 := by omega
  rw [h4, pow_succ]
  omega

theorem phiQ_pop_lt {K : Nat} {q : Frontier} {e : State} {rest : Frontier}
    (hq : qpop q = some (e, rest)) : phiQ K rest < phiQ K q := by
  unfold phiQ
  rw [qpop_flat hq]
  simp only [List.map_cons, List.sum_cons]
  have hpos : 0 < 4 ^ (K - e.cost) := pow_pos (by norm_num) _
  omega

theorem pushTurns_ne_panic {st : SearchSt} {e : State} {vis' : VisArr}
    {q1 : Frontier} (hc : e.direction.isCardinal = true) :
    Maze.pushTurns st e vis' q1 ≠ StepRes.panic := by
  intro h
  obtain ⟨h1, h2⟩ := cardinal_turns_some hc
  unfold Maze.pushTurns at h
  cases hcw : e.direction.turn_clockwise with
  | none => rw [hcw] at h1; simp at h1
  | some dcw =>
    cases hccw : e.direction.turn_counterclockwise with
    | none => rw [hccw] at h2; simp at h2
    | some dccw =>
      simp only [hcw, hccw] at h
      cases h

theorem step_no_panic {m : Maze} {st : SearchSt} (hInv : Inv m st)
    (hrect : m.Rectangular) (hb : m.InBounds m.start) :
    m.step st ≠ StepRes.panic := by
  intro hpan
  cases stepView m st with
  | empty hq hs => rw [hs] at hpan; cases hpan
  | goal e rest final' hq hpos hf hs => rw [hs] at hpan; cases hpan
  | skip e rest prev hq hpos hv hlt hs => rw [hs] at hpan; cases hpan
  | skipExtend e rest prev hq hpos hv heq hmem hs => rw [hs] at hpan; cases hpan
  | panicVis e rest hq hpos hv hs =>
    have hmemE : e ∈ flatQ st.queue := head_mem_flat hq
    obtain ⟨ms, hw, _⟩ := hInv.sound e hmemE
    have hc : e.direction.isCardinal = true := walk_cardinal hw
    have hbnd : m.InBounds e.position := walk_inBounds hb hw
    obtain ⟨w, hwl⟩ := visLook_shape_some hInv.shape hbnd (idx_lt_four hc)
    rw [hv] at hwl
    cases hwl
  | expand e rest prevOpt hq hpos hv hge hnm hs =>
    rw [hs] at hpan
    have hmemE : e ∈ flatQ st.queue := head_mem_flat hq
    obtain ⟨ms, hw, _⟩ := hInv.sound e hmemE
    have hc : e.direction.isCardinal = true := walk_cardinal hw
    unfold Maze.expand at hpan
    cases hf : m.fwdCell e.position e.direction with
    | none =>
      simp only [hf] at hpan
      exact pushTurns_ne_panic hc hpan
    | some p =>
      simp only [hf] at hpan
      cases ht : m.tileAt p.1 p.2 with
      | none =>
        obtain ⟨t, ht2⟩ := tileAt_rect hrect (fwdCell_bounds hf)
        rw [ht] at ht2
        cases ht2
      | some t =>
        simp only [ht] at hpan
        exact pushTurns_ne_panic hc hpan

theorem runLoop_succ (m : Maze) (n : Nat) (st : SearchSt) :
    m.runLoop (n + 1) st =
      match m.step st with
      | StepRes.panic => RunOut.panic
      | StepRes.done r => RunOut.done r st
      | StepRes.next st' => m.runLoop n st' := rfl

theorem runLoop_no_panic {m : Maze} (hrect : m.Rectangular)
    (hb : m.InBounds m.start) :
    ∀ (fuel : Nat) (st : SearchSt), Inv m st → m.runLoop fuel st ≠ RunOut.panic := by
  intro fuel
  induction fuel with
  | zero =>
    intro st _ h
    cases h
  | succ n ih =>
    intro st hInv h
    rw [runLoop_succ] at h
    cases hs : m.step st with
    | panic => exact step_no_panic hInv hrect hb hs
    | done r => rw [hs] at h; cases h
    | next st' => rw [hs] at h; exact ih st' (Inv_step hInv hs) h

theorem step_measure {m : Maze} {st st' : SearchSt} (hInv : Inv m st)
    (hstep : m.step st = StepRes.next st') :
    unvisited st'.visited < unvisited st.visited ∨
    (st'.visited = st.visited ∧
      phiQ (maxVis st.visited + 1) st'.queue <
        phiQ (maxVis st.visited + 1) st.queue) := by
  cases stepView m st with
  | empty hq hs => rw [hs] at hstep; cases hstep
  | panicVis e rest hq hpos hv hs => rw [hs] at hstep; cases hstep
  | goal e rest final' hq hpos hf hs =>
    rw [hs] at hstep
    cases hstep
    exact Or.inr ⟨rfl, phiQ_pop_lt hq⟩
  | skip e rest prev hq hpos hv hlt hs =>
    rw [hs] at hstep
    cases hstep
    exact Or.inr ⟨rfl, phiQ_pop_lt hq⟩
  | skipExtend e rest prev hq hpos hv heq hmem hs =>
    rw [hs] at hstep
    cases hstep
    exact Or.inr ⟨rfl, phiQ_pop_lt hq⟩
  | expand e rest prevOpt hq hpos hv hge hnm hs =>
    rw [hs] at hstep
    obtain ⟨dcw, dccw, q1, hcw, hccw, hst', hfwd⟩ := expand_next_inv hstep
    cases prevOpt with
    | none =>
      left
      rw [hst']
      show unvisited (setVis st.visited e.position e.direction.idx e.cost)
        < unvisited st.visited
      have h5 := unvisited_setVis_none hv e.cost
      omega
    | some prev =>
      have hmemE : e ∈ flatQ st.queue := head_mem_flat hq
      have hple : prev ≤ e.cost := hInv.visLe e.position e.direction.idx prev hv e hmemE
      have hcle : e.cost ≤ prev := hge prev rfl
      have hpe : prev = e.cost := le_antisymm hple hcle
      rw [hpe] at hv
      have hveq : setVis st.visited e.position e.direction.idx e.cost = st.visited :=
        setVis_eq_self hv
      refine Or.inr ⟨?_, ?_⟩
      · rw [hst']
        exact hveq
      · rw [hst']
        have hKc : e.cost < maxVis st.visited + 1 := by
          have := maxVis_bound hv
          omega
        show phiQ (maxVis st.visited + 1)
            (qpush ⟨e.cost + 1000, e.position, dccw, e.path⟩
              (qpush ⟨e.cost + 1000, e.position, dcw, e.path⟩ q1))
          < phiQ (maxVis st.visited + 1) st.queue
        have e1 : phiQ (maxVis st.visited + 1)
            (qpush ⟨e.cost + 1000, e.position, dccw, e.path⟩
              (qpush ⟨e.cost + 1000, e.position, dcw, e.path⟩ q1))
            = 4 ^ (maxVis st.visited + 1 - (e.cost + 1000)) +
              (4 ^ (maxVis st.visited + 1 - (e.cost + 1000)) +
                phiQ (maxVis st.visited + 1) q1) := by
          rw [phiQ_qpush, phiQ_qpush]
        have e2 : phiQ (maxVis st.visited + 1) q1 ≤
            4 ^ (maxVis st.visited + 1 - (e.cost + 1)) +
              phiQ (maxVis st.visited + 1) rest := by
          rcases hfwd with ⟨pp, ha, hq1⟩ | ⟨ha, hq1⟩
          · have e2' : phiQ (maxVis st.visited + 1)
                (qpush ⟨e.cost + 1, pp, e.direction, e.path ++ [pp]⟩ rest)
                = 4 ^ (maxVis st.visited + 1 - (e.cost + 1)) +
                  phiQ (maxVis st.visited + 1) rest := by
              rw [phiQ_qpush]
            rw [hq1]
            exact le_of_eq e2'
          · rw [hq1]
            exact Nat.le_add_left _ _
        have e3 : phiQ (maxVis st.visited + 1) st.queue
            = 4 ^ (maxVis st.visited + 1 - e.cost) +
              phiQ (maxVis st.visited + 1) rest := by
          unfold phiQ
          rw [qpop_flat hq]
          simp only [List.map_cons, List.sum_cons]
        have e4 := pow_gap hKc
        rw [e1, e3]
        omega

theorem runLoop_term_aux (m : Maze) (hrect : m.Rectangular)
    (hb : m.InBounds m.start) :
    ∀ (N P : Nat) (st : SearchSt), Inv m st → unvisited st.visited < N →
      phiQ (maxVis st.visited + 1) st.queue < P →
      ∃ fuel r stF, m.runLoop fuel st = RunOut.done r stF := by
  intro N
  induction N with
  | zero =>
    intro P st _ h _
    exact absurd h (by omega)
  | succ N ihN =>
    intro P
    induction P with
    | zero =>
      intro st _ _ h
      exact absurd h (by omega)
    | succ P ihP =>
      intro st hInv hN hP
      cases hs : m.step st with
      | panic => exact absurd hs (step_no_panic hInv hrect hb)
      | done r =>
        refine ⟨0 + 1, r, st, ?_⟩
        rw [runLoop_succ, hs]
      | next st' =>
        have hInv' := Inv_step hInv hs
        rcases step_measure hInv hs with hdec | ⟨hveq, hqdec⟩
        · obtain ⟨fuel, r, stF, hrun⟩ := ihN
            (phiQ (maxVis st'.visited + 1) st'.queue + 1)
            st' hInv' (by omega) (by omega)
          refine ⟨fuel + 1, r, stF, ?_⟩
          rw [runLoop_succ, hs]
          exact hrun
        · obtain ⟨fuel, r, stF, hrun⟩ := ihP st' hInv'
            (by rw [hveq]; omega) (by rw [hveq]; omega)
          refine ⟨fuel + 1, r, stF, ?_⟩
          rw [runLoop_succ, hs]
          exact hrun

theorem runLoop_term (m : Maze) (hrect : m.Rectangular) (hb : m.InBounds m.start)
    (st : SearchSt) (hInv : Inv m st) :
    ∃ fuel r stF, m.runLoop fuel st = RunOut.done r stF :=
  runLoop_term_aux m hrect hb (unvisited st.visited + 1)
    (phiQ (maxVis st.visited + 1) st.queue + 1) st hInv (by omega) (by omega)

theorem walkT_fixed {m : Maze} {p0 : Pos}
    (hstuck : ∀ d : Direction, m.applyMove (p0, d) Move.fwd = none) :
    ∀ (ms : List Move) (d : Direction) (tr : List Pos) (r : SD × List Pos),
      m.walkT (p0, d) tr ms = some r → r.1.1 = p0 := by
  intro ms
  induction ms with
  | nil =>
    intro d tr r h
    simp only [Maze.walkT] at h
    cases h
    rfl
  | cons mv ms ih =>
    intro d tr r h
    simp only [Maze.walkT] at h
    cases mv with
    | fwd =>
      rw [hstuck d] at h
      simp at h
    | cw =>
      cases ht : d.turn_clockwise with
      | none =>
        rw [show m.applyMove (p0, d) Move.cw = none by
          simp [Maze.applyMove, ht]] at h
        simp at h
      | some d' =>
        rw [show m.applyMove (p0, d) Move.cw = some (p0, d') by
          simp [Maze.applyMove, ht]] at h
        exact ih d' _ r h
    | ccw =>
      cases ht : d.turn_counterclockwise with
      | none =>
        rw [show m.applyMove (p0, d) Move.ccw = none by
          simp [Maze.applyMove, ht]] at h
        simp at h
      | some d' =>
        rw [show m.applyMove (p0, d) Move.ccw = some (p0, d') by
          simp [Maze.applyMove, ht]] at h
        exact ih d' _ r h

/-- C3 counterexample: the two-line input consisting of an empty line
followed by the single character E parses to a two-row maze whose end
cell is unreachable, yet find_all_best_paths never returns None on it:
the empty first row makes the first visited-array read an index panic,
so every run with at least one loop iteration panics. -/
theorem C3_counterexample :
    Maze.from_str [[], ['E']]
      = some (Except.ok { grid := [[], [Tile.End]], start := (0, 0), «end» := (1, 0) }) ∧
    ({ grid := [[], [Tile.End]], start := (0, 0), «end» := (1, 0) } : Maze).grid ≠ [] ∧
    ¬ Maze.ReachesEnd { grid := [[], [Tile.End]], start := (0, 0), «end» := (1, 0) } ∧
    ¬ Maze.Returns { grid := [[], [Tile.End]], start := (0, 0), «end» := (1, 0) } none := by
  refine ⟨by decide, by decide, ?_, ?_⟩
  · rintro ⟨ms, out, hw, hend⟩
    have hstuck : ∀ d : Direction,
        Maze.applyMove { grid := [[], [Tile.End]], start := (0, 0), «end» := (1, 0) }
          (((0, 0) : Pos), d) Move.fwd = none := by
      intro d
      cases d <;> decide
    have h0 := walkT_fixed hstuck ms Direction.Right [(0, 0)] out hw
    rw [h0] at hend
    exact absurd hend (by decide)
  · rintro ⟨fuel, hf⟩
    cases fuel with
    | zero => exact absurd hf (by decide)
    | succ n =>
      have hstep : Maze.step { grid := [[], [Tile.End]], start := (0, 0), «end» := (1, 0) }
          (Maze.initSt { grid := [[], [Tile.End]], start := (0, 0), «end» := (1, 0) })
          = StepRes.panic := by decide
      have hrl : Maze.runLoop { grid := [[], [Tile.End]], start := (0, 0), «end» := (1, 0) }
          (n + 1) (Maze.initSt { grid := [[], [Tile.End]], start := (0, 0), «end» := (1, 0) })
          = RunOut.panic := by
        rw [runLoop_succ, hstep]
      unfold Maze.find_all_best_paths at hf
      rw [if_neg (by decide), hrl] at hf
      simp at hf

/-- C3 (amended): unreachable goal is a normal outcome on well-shaped
mazes.  For every rectangular maze with at least one row whose start
cell lies inside the grid and whose end cell is unreachable from the
start cell facing Right, find_all_best_paths never panics, and for some
budget the loop drains the frontier and returns None. -/
theorem C3_unreachable_none (m : Maze) (hg : m.grid ≠ []) (hrect : m.Rectangular)
    (hb : m.InBounds m.start) (hnr : ¬ m.ReachesEnd) :
    (∀ fuel, m.find_all_best_paths fuel ≠ RunRes.panic) ∧
    (∃ fuel, m.find_all_best_paths fuel = RunRes.done none) := by
  constructor
  · intro fuel hf
    unfold Maze.find_all_best_paths at hf
    rw [if_neg hg] at hf
    cases hr : m.runLoop fuel m.initSt with
    | panic => exact runLoop_no_panic hrect hb fuel m.initSt (Inv_init m) hr
    | out => rw [hr] at hf; simp at hf
    | done r stF => rw [hr] at hf; simp at hf
  · obtain ⟨fuel, r, stF, hrun⟩ := runLoop_term m hrect hb m.initSt (Inv_init m)
    obtain ⟨hInvF, hflat, hrF⟩ := runLoop_done fuel m.initSt r stF (Inv_init m) hrun
    have hnone : stF.final_cost = none := by
      cases hsf : stF.final_cost with
      | none => rfl
      | some F =>
        obtain ⟨ms, sd, tr, hwk, hend, _⟩ := hInvF.finalSound F hsf
        exact absurd ⟨ms, (sd, tr), hwk, hend⟩ hnr
    have hrn : r = none := by rw [hrF, hnone]; rfl
    subst hrn
    refine ⟨fuel, ?_⟩
    unfold Maze.find_all_best_paths
    rw [if_neg hg, hrun]

/-- Witness for C3 at the one-row maze S#E: the wall blocks every
forward move, the end is unreachable, and the search returns None
without panicking. -/
theorem C3_witness :
    (({ grid := [[Tile.Start, Tile.Wall, Tile.End]], start := (0, 0), «end» := (0, 2) } : Maze).grid ≠ [] ∧
     Maze.Rectangular { grid := [[Tile.Start, Tile.Wall, Tile.End]], start := (0, 0), «end» := (0, 2) } ∧
     Maze.InBounds { grid := [[Tile.Start, Tile.Wall, Tile.End]], start := (0, 0), «end» := (0, 2) } (0, 0) ∧
     ¬ Maze.ReachesEnd { grid := [[Tile.Start, Tile.Wall, Tile.End]], start := (0, 0), «end» := (0, 2) }) ∧
    ((∀ fuel, Maze.find_all_best_paths
        { grid := [[Tile.Start, Tile.Wall, Tile.End]], start := (0, 0), «end» := (0, 2) } fuel
        ≠ RunRes.panic) ∧
     (∃ fuel, Maze.find_all_best_paths
        { grid := [[Tile.Start, Tile.Wall, Tile.End]], start := (0, 0), «end» := (0, 2) } fuel
        = RunRes.done none)) := by
  have hnr : ¬ Maze.ReachesEnd
      { grid := [[Tile.Start, Tile.Wall, Tile.End]], start := (0, 0), «end» := (0, 2) } := by
    rintro ⟨ms, out, hw, hend⟩
    have hstuck : ∀ d : Direction,
        Maze.applyMove { grid := [[Tile.Start, Tile.Wall, Tile.End]], start := (0, 0), «end» := (0, 2) }
          (((0, 0) : Pos), d) Move.fwd = none := by
      intro d
      cases d <;> decide
    have h0 := walkT_fixed hstuck ms Direction.Right [(0, 0)] out hw
    rw [h0] at hend
    exact absurd hend (by decide)
  exact ⟨⟨by decide, by unfold Maze.Rectangular; decide,
      by unfold Maze.InBounds; decide, hnr⟩,
    C3_unreachable_none
      { grid := [[Tile.Start, Tile.Wall, Tile.End]], start := (0, 0), «end» := (0, 2) }
      (by decide) (by unfold Maze.Rectangular; decide)
      (by unfold Maze.InBounds; decide) hnr⟩

theorem moveCost_pos (mv : Move) : 0 < moveCost mv := by
  cases mv <;> simp [moveCost]

theorem movesCost_eq_zero {ms : List Move} (h : movesCost ms = 0) : ms = [] := by
  cases ms with
  | nil => rfl
  | cons mv ms =>
    have hpos := moveCost_pos mv
    simp only [movesCost, List.map_cons, List.sum_cons] at h
    omega

theorem movesCost_cons (mv : Move) (ms : List Move) :
    movesCost (mv :: ms) = moveCost mv + movesCost ms := by
  simp [movesCost]

theorem walkT_anyTrace {m : Maze} : ∀ (ms : List Move) (s : SD) (tr tr2 : List Pos)
    (sd : SD) (tr1 : List Pos), m.walkT s tr ms = some (sd, tr1) →
    ∃ tr3, m.walkT s tr2 ms = some (sd, tr3) := by
  intro ms
  induction ms with
  | nil =>
    intro s tr tr2 sd tr1 h
    cases h
    exact ⟨tr2, rfl⟩
  | cons mv ms ih =>
    intro s tr tr2 sd tr1 h
    simp only [Maze.walkT] at h ⊢
    cases ha : m.applyMove s mv with
    | none => rw [ha] at h; simp at h
    | some s1 =>
      rw [ha] at h
      exact ih s1 (trUpd mv s1.1 tr) (trUpd mv s1.1 tr2) sd tr1 h

theorem walkT_trace_mono {m : Maze} : ∀ (ms : List Move) (s : SD) (tr : List Pos)
    (sd : SD) (tr' : List Pos), m.walkT s tr ms = some (sd, tr') →
    ∀ x ∈ tr, x ∈ tr' := by
  intro ms
  induction ms with
  | nil =>
    intro s tr sd tr' h
    cases h
    exact fun x hx => hx
  | cons mv ms ih =>
    intro s tr sd tr' h x hx
    simp only [Maze.walkT] at h
    cases ha : m.applyMove s mv with
    | none => rw [ha] at h; simp at h
    | some s1 =>
      rw [ha] at h
      refine ih s1 (trUpd mv s1.1 tr) sd tr' h x ?_
      cases mv with
      | fwd => exact List.mem_append_left _ hx
      | cw => exact hx
      | ccw => exact hx

theorem step_tiles_mono {m : Maze} {st st' : SearchSt}
    (hstep : m.step st = StepRes.next st') :
    ∀ x ∈ st.path_tiles, x ∈ st'.path_tiles := by
  intro x hx
  cases stepView m st with
  | empty hq hs => rw [hs] at hstep; cases hstep
  | panicVis e rest hq hpos hv hs => rw [hs] at hstep; cases hstep
  | goal e rest final' hq hpos hf hs =>
    rw [hs] at hstep
    cases hstep
    show x ∈ (bif final'.any (Nat.beq e.cost) then
      extendTiles st.path_tiles e.path else st.path_tiles)
    cases hb : final'.any (Nat.beq e.cost) with
    | true => exact mem_extendTiles.mpr (Or.inl hx)
    | false => exact hx
  | skip e rest prev hq hpos hv hlt hs =>
    rw [hs] at hstep
    cases hstep
    exact hx
  | skipExtend e rest prev hq hpos hv heq hmem hs =>
    rw [hs] at hstep
    cases hstep
    exact mem_extendTiles.mpr (Or.inl hx)
  | expand e rest prevOpt hq hpos hv hge hnm hs =>
    rw [hs] at hstep
    obtain ⟨dcw, dccw, q1, hcw, hccw, hst', hfwd⟩ := expand_next_inv hstep
    rw [hst']
    exact hx

theorem run_tiles_mono {m : Maze} : ∀ (fuel : Nat) (st : SearchSt)
    (r : Option (Nat × Nat)) (stF : SearchSt),
    m.runLoop fuel st = RunOut.done r stF →
    ∀ x ∈ st.path_tiles, x ∈ stF.path_tiles := by
  intro fuel
  induction fuel with
  | zero => intro st r stF h; cases h
  | succ n ih =>
    intro st r stF h x hx
    rw [runLoop_succ] at h
    cases hs : m.step st with
    | panic => rw [hs] at h; cases h
    | done r' =>
      rw [hs] at h
      cases h
      exact hx
    | next st1 =>
      rw [hs] at h
      exact ih st1 r stF h x (step_tiles_mono hs x hx)

theorem findSome_le_walk {m : Maze} {fuel c n : Nat}
    (hg : m.grid ≠ [])
    (hrun : m.find_all_best_paths fuel = RunRes.done (some (c, n)))
    {ms : List Move} {sd : SD} {tr : List Pos}
    (hw : m.walk ms = some (sd, tr)) (hend : sd.1 = m.«end») :
    c ≤ movesCost ms := by
  unfold Maze.find_all_best_paths at hrun
  rw [if_neg hg] at hrun
  cases hr : m.runLoop fuel m.initSt with
  | panic => rw [hr] at hrun; cases hrun
  | out => rw [hr] at hrun; cases hrun
  | done r stF =>
    rw [hr] at hrun
    cases hrun
    obtain ⟨hInvF, hflat, hrF⟩ := runLoop_done fuel m.initSt _ stF (Inv_init m) hr
    have hF : stF.final_cost = some c := by
      cases hsf : stF.final_cost with
      | none => rw [hsf] at hrF; cases hrF
      | some F =>
        rw [hsf] at hrF
        simp only [Option.map_some'] at hrF
        cases hrF
        rfl
    rcases chainK hInvF hflat ms sd tr hw with ⟨v, hv, _⟩ | ⟨F, h2, h3⟩
    · exact absurd hend (hInvF.visSound sd.1 sd.2 v hv).1
    · rw [hF] at h2
      cases h2
      exact h3

theorem fwdCell_congr {m m' : Maze} (hrows : m.rows = m'.rows)
    (hcols : m.cols = m'.cols) (p : Pos) (dir : Direction) :
    m.fwdCell p dir = m'.fwdCell p dir := by
  unfold Maze.fwdCell
  rw [hrows, hcols]

theorem applyMove_mono {m m' : Maze} (hrows : m.rows = m'.rows)
    (hcols : m.cols = m'.cols)
    (ht : ∀ r c t, m.tileAt r c = some t → m'.tileAt r c = some t)
    {s : SD} {mv : Move} {s' : SD} (h : m.applyMove s mv = some s') :
    m'.applyMove s mv = some s' := by
  cases mv with
  | fwd =>
    obtain ⟨p, t, hf, htl, hwall, rfl⟩ := applyMove_fwd_inv h
    have hf' : m'.fwdCell s.1 s.2 = some p := by
      rw [← fwdCell_congr hrows hcols]
      exact hf
    have htl' := ht p.1 p.2 t htl
    simp [Maze.applyMove, hf', htl', hwall]
  | cw => exact h
  | ccw => exact h

theorem walkT_mono {m m' : Maze} (hrows : m.rows = m'.rows)
    (hcols : m.cols = m'.cols)
    (ht : ∀ r c t, m.tileAt r c = some t → m'.tileAt r c = some t) :
    ∀ (ms : List Move) (s : SD) (tr : List Pos) (r : SD × List Pos),
      m.walkT s tr ms = some r → m'.walkT s tr ms = some r := by
  intro ms
  induction ms with
  | nil => intro s tr r h; exact h
  | cons mv ms ih =>
    intro s tr r h
    simp only [Maze.walkT] at h ⊢
    cases ha : m.applyMove s mv with
    | none => rw [ha] at h; simp at h
    | some s1 =>
      rw [ha] at h
      rw [applyMove_mono hrows hcols ht ha]
      exact ih s1 (trUpd mv s1.1 tr) r h

theorem runLoop_stuck {m : Maze} :
    ∀ (k : Nat) (st stK : SearchSt), m.iterN k st = some stK →
      m.step stK = StepRes.panic →
      ∀ (fuel : Nat) (r : Option (Nat × Nat)) (stF : SearchSt),
        m.runLoop fuel st ≠ RunOut.done r stF := by
  intro k
  induction k with
  | zero =>
    intro st stK hit hpan fuel r stF hrun
    cases hit
    cases fuel with
    | zero => cases hrun
    | succ n =>
      rw [runLoop_succ, hpan] at hrun
      cases hrun
  | succ k ih =>
    intro st stK hit hpan fuel r stF hrun
    unfold Maze.iterN at hit
    cases hs : m.step st with
    | panic => rw [hs] at hit; cases hit
    | done r' => rw [hs] at hit; cases hit
    | next st1 =>
      rw [hs] at hit
      cases fuel with
      | zero => cases hrun
      | succ n =>
        rw [runLoop_succ, hs] at hrun
        exact ih st1 stK hit hpan n r stF hrun

theorem run_carrier {m : Maze} :
    ∀ (fuel : Nat) (st : SearchSt) (r : Option (Nat × Nat)) (stF : SearchSt),
      Inv m st → m.runLoop fuel st = RunOut.done r stF →
      ∀ (C : Nat),
      (∀ ms sd tr, m.walk ms = some (sd, tr) → sd.1 = m.«end» →
        C ≤ movesCost ms) →
      (∀ F, st.final_cost = some F → F = C) →
      ∀ (e : State), e ∈ flatQ st.queue →
      ∀ (ms' : List Move) (sd' : SD) (tr' : List Pos),
        m.walkT (e.position, e.direction) e.path ms' = some (sd', tr') →
        sd'.1 = m.«end» → e.cost + movesCost ms' = C →
        ∀ x ∈ tr', x ∈ stF.path_tiles := by
  intro fuel
  induction fuel with
  | zero =>
    intro st r stF _ hrun
    cases hrun
  | succ n ih =>
    intro st r stF hInv hrun C hmin hfin e he ms' sd' tr' hwT hend hcost x hx
    have he0 := he
    rw [runLoop_succ] at hrun
    cases stepView m st with
    | empty hq hs =>
      rw [qpop_none hq] at he
      cases he
    | panicVis e0 rest hq hpos hv hs =>
      rw [hs] at hrun
      cases hrun
    | goal e0 rest final' hq hpos hf hs =>
      rw [hs] at hrun
      rw [qpop_flat hq] at he
      have hle3 : e.cost ≤ C := by omega
      have hCle : C ≤ e0.cost := by
        obtain ⟨ms0, hw0, hc00⟩ := hInv.sound e0 (head_mem_flat hq)
        have := hmin ms0 (e0.position, e0.direction) e0.path hw0 hpos
        omega
      have hle2 : e0.cost ≤ e.cost := by
        rcases List.mem_cons.mp he with heq | hrest
        · exact le_of_eq (by rw [heq])
        · exact qpop_min hInv.wfq hq e hrest
      have hc0 : e0.cost = C := le_antisymm (le_trans hle2 hle3) hCle
      have hfinal' : final' = some C := by
        rw [hf]
        cases hsf : st.final_cost with
        | none =>
          show some e0.cost = some C
          rw [hc0]
        | some f =>
          show some f = some C
          rw [hfin f hsf]
      have hfin1 : ∀ F, final' = some F → F = C := by
        intro F hF
        rw [hfinal'] at hF
        cases hF
        rfl
      rcases List.mem_cons.mp he with heq | hrest
      · subst heq
        have hCe : C ≤ e.cost := hCle
        have hms0 : movesCost ms' = 0 := by omega
        have hnil := movesCost_eq_zero hms0
        subst hnil
        cases hwT
        have hbif : final'.any (Nat.beq e.cost) = true := by
          rw [hfinal', hc0]
          exact Nat.beq_refl C
        refine run_tiles_mono n _ r stF hrun x ?_
        show x ∈ (bif final'.any (Nat.beq e.cost) then
          extendTiles st.path_tiles e.path else st.path_tiles)
        rw [hbif]
        exact mem_extendTiles.mpr (Or.inr hx)
      · exact ih _ r stF (Inv_step hInv hs) hrun C hmin hfin1 e hrest
          ms' sd' tr' hwT hend hcost x hx
    | skip e0 rest prev hq hpos hv hlt hs =>
      rw [hs] at hrun
      rw [qpop_flat hq] at he
      rcases List.mem_cons.mp he with heq | hrest
      · subst heq
        exfalso
        obtain ⟨hne, msp, trp, hwp, hcp⟩ := hInv.visSound e.position e.direction prev hv
        obtain ⟨tr3, hwT3⟩ := walkT_anyTrace ms' (e.position, e.direction) e.path trp sd' tr' hwT
        have hw2 : m.walk (msp ++ ms') = some (sd', tr3) := by
          unfold Maze.walk at hwp ⊢
          rw [walkT_append, hwp]
          simp only [Option.some_bind]
          exact hwT3
        have hminu := hmin (msp ++ ms') sd' tr3 hw2 hend
        rw [movesCost_append] at hminu
        omega
      · exact ih _ r stF (Inv_step hInv hs) hrun C hmin hfin e hrest
          ms' sd' tr' hwT hend hcost x hx
    | skipExtend e0 rest prev hq hpos hv heq0 hmem hs =>
      rw [hs] at hrun
      rw [qpop_flat hq] at he
      rcases List.mem_cons.mp he with heq | hrest
      · subst heq
        exfalso
        cases hsf : st.final_cost with
        | none =>
          rw [hInv.tilesEmpty hsf] at hmem
          cases hmem
        | some F =>
          have hFC := hfin F hsf
          have hFle := hInv.finalLe F hsf e he0
          cases hms : ms' with
          | nil =>
            subst hms
            cases hwT
            exact hpos hend
          | cons mv ms'' =>
            subst hms
            have hmc := movesCost_cons mv ms''
            have hmp := moveCost_pos mv
            omega
      · exact ih _ r stF (Inv_step hInv hs) hrun C hmin hfin e hrest
          ms' sd' tr' hwT hend hcost x hx
    | expand e0 rest prevOpt hq hpos hv hge hnm hs =>
      rw [hs] at hrun
      cases hexp : m.expand st e0 rest with
      | panic =>
        rw [hexp] at hrun
        cases hrun
      | done r' => exact absurd hexp expand_ne_done
      | next st1 =>
        rw [hexp] at hrun
        have hstep' : m.step st = StepRes.next st1 := by rw [hs, hexp]
        obtain ⟨dcw, dccw, q1, hcw, hccw, hst', hfwd⟩ := expand_next_inv hexp
        subst hst'
        have hInv1 := Inv_step hInv hstep'
        rw [qpop_flat hq] at he
        rcases List.mem_cons.mp he with heq | hrest
        · subst heq
          cases hms : ms' with
          | nil =>
            subst hms
            cases hwT
            exact absurd hend hpos
          | cons mv ms'' =>
            subst hms
            simp only [Maze.walkT] at hwT
            cases ha : m.applyMove (e.position, e.direction) mv with
            | none => rw [ha] at hwT; simp at hwT
            | some s1 =>
              rw [ha] at hwT
              have hmc := movesCost_cons mv ms''
              cases mv with
              | fwd =>
                rcases hfwd with ⟨pp, ha2, hq1⟩ | ⟨ha2, hq1⟩
                · rw [ha] at ha2
                  cases ha2
                  subst hq1
                  have hm1 : (⟨e.cost + 1, pp, e.direction, e.path ++ [pp]⟩ : State)
                      ∈ flatQ (qpush ⟨e.cost + 1000, e.position, dccw, e.path⟩
                        (qpush ⟨e.cost + 1000, e.position, dcw, e.path⟩
                          (qpush ⟨e.cost + 1, pp, e.direction, e.path ++ [pp]⟩ rest))) :=
                    mem_flatQ_qpush.mpr (Or.inr (mem_flatQ_qpush.mpr
                      (Or.inr (mem_flatQ_qpush.mpr (Or.inl rfl)))))
                  refine ih _ r stF hInv1 hrun C hmin hfin
                    ⟨e.cost + 1, pp, e.direction, e.path ++ [pp]⟩ hm1
                    ms'' sd' tr' hwT hend ?_ x hx
                  show e.cost + 1 + movesCost ms'' = C
                  simp only [moveCost] at hmc
                  omega
                · rw [ha] at ha2
                  cases ha2
              | cw =>
                have ha' : ((e.direction.turn_clockwise).map
                    fun d => ((e.position, d) : SD)) = some s1 := ha
                rw [hcw] at ha'
                simp only [Option.map_some', Option.some.injEq] at ha'
                subst ha'
                have hm1 : (⟨e.cost + 1000, e.position, dcw, e.path⟩ : State)
                    ∈ flatQ (qpush ⟨e.cost + 1000, e.position, dccw, e.path⟩
                      (qpush ⟨e.cost + 1000, e.position, dcw, e.path⟩ q1)) :=
                  mem_flatQ_qpush.mpr (Or.inr (mem_flatQ_qpush.mpr (Or.inl rfl)))
                refine ih _ r stF hInv1 hrun C hmin hfin
                  ⟨e.cost + 1000, e.position, dcw, e.path⟩ hm1
                  ms'' sd' tr' hwT hend ?_ x hx
                show e.cost + 1000 + movesCost ms'' = C
                simp only [moveCost] at hmc
                omega
              | ccw =>
                have ha' : ((e.direction.turn_counterclockwise).map
                    fun d => ((e.position, d) : SD)) = some s1 := ha
                rw [hccw] at ha'
                simp only [Option.map_some', Option.some.injEq] at ha'
                subst ha'
                have hm1 : (⟨e.cost + 1000, e.position, dccw, e.path⟩ : State)
                    ∈ flatQ (qpush ⟨e.cost + 1000, e.position, dccw, e.path⟩
                      (qpush ⟨e.cost + 1000, e.position, dcw, e.path⟩ q1)) :=
                  mem_flatQ_qpush.mpr (Or.inl rfl)
                refine ih _ r stF hInv1 hrun C hmin hfin
                  ⟨e.cost + 1000, e.position, dccw, e.path⟩ hm1
                  ms'' sd' tr' hwT hend ?_ x hx
                show e.cost + 1000 + movesCost ms'' = C
                simp only [moveCost] at hmc
                omega
        · have hq1m : e ∈ flatQ q1 := by
            rcases hfwd with ⟨pp, ha2, hq1⟩ | ⟨ha2, hq1⟩
            · rw [hq1]
              exact mem_flatQ_qpush.mpr (Or.inr hrest)
            · rw [hq1]
              exact hrest
          exact ih _ r stF hInv1 hrun C hmin hfin e
            (mem_flatQ_qpush.mpr (Or.inr (mem_flatQ_qpush.mpr (Or.inr hq1m))))
            ms' sd' tr' hwT hend hcost x hx

/-- C2 (amended): all-optimal-paths enumeration on well-shaped mazes.
For every rectangular maze with at least one row and an in-bounds start
cell, and every pair of minimum-cost move sequences from the start cell
facing Right to the end cell, the search terminates with the shared
optimal cost paired with its tile count, and the recorded optimal tile
set contains every cell on the trace of both sequences. -/
theorem C2_all_optimal_tiles (m : Maze) (hg : m.grid ≠ []) (hrect : m.Rectangular)
    (hb : m.InBounds m.start)
    (ms1 ms2 : List Move) (sd1 sd2 : SD) (tr1 tr2 : List Pos)
    (hw1 : m.walk ms1 = some (sd1, tr1)) (he1 : sd1.1 = m.«end»)
    (hw2 : m.walk ms2 = some (sd2, tr2)) (he2 : sd2.1 = m.«end»)
    (hc2 : movesCost ms2 = movesCost ms1)
    (hmin : ∀ ms sd tr, m.walk ms = some (sd, tr) → sd.1 = m.«end» →
      movesCost ms1 ≤ movesCost ms) :
    ∃ fuel stF,
      m.runLoop fuel m.initSt
        = RunOut.done (some (movesCost ms1, stF.path_tiles.length)) stF ∧
      m.find_all_best_paths fuel
        = RunRes.done (some (movesCost ms1, stF.path_tiles.length)) ∧
      (∀ x ∈ tr1, x ∈ stF.path_tiles) ∧ (∀ x ∈ tr2, x ∈ stF.path_tiles) := by
  obtain ⟨fuel, r, stF, hrun⟩ := runLoop_term m hrect hb m.initSt (Inv_init m)
  obtain ⟨hInvF, hflat, hrF⟩ := runLoop_done fuel m.initSt r stF (Inv_init m) hrun
  have hinitq : (⟨0, m.start, Direction.Right, [m.start]⟩ : State)
      ∈ flatQ m.initSt.queue := by
    simp [Maze.initSt, flatQ]
  have hfin0 : ∀ F, (m.initSt).final_cost = some F → F = movesCost ms1 := by
    intro F hF
    simp [Maze.initSt] at hF
  have ht1 : ∀ x ∈ tr1, x ∈ stF.path_tiles :=
    run_carrier fuel m.initSt r stF (Inv_init m) hrun (movesCost ms1) hmin hfin0
      ⟨0, m.start, Direction.Right, [m.start]⟩ hinitq ms1 sd1 tr1 hw1 he1
      (by show 0 + movesCost ms1 = movesCost ms1; omega)
  have ht2 : ∀ x ∈ tr2, x ∈ stF.path_tiles :=
    run_carrier fuel m.initSt r stF (Inv_init m) hrun (movesCost ms1) hmin hfin0
      ⟨0, m.start, Direction.Right, [m.start]⟩ hinitq ms2 sd2 tr2 hw2 he2
      (by show 0 + movesCost ms2 = movesCost ms1; omega)
  have hstart1 : m.start ∈ tr1 :=
    walkT_trace_mono ms1 (m.start, Direction.Right) [m.start] sd1 tr1 hw1
      m.start (by simp)
  cases hsf : stF.final_cost with
  | none =>
    exfalso
    have hmem := ht1 m.start hstart1
    rw [hInvF.tilesEmpty hsf] at hmem
    cases hmem
  | some F =>
    have hF1 : movesCost ms1 ≤ F := by
      obtain ⟨msF, sdF, trF, hwF, hendF, hcF⟩ := hInvF.finalSound F hsf
      have := hmin msF sdF trF hwF hendF
      omega
    have hF2 : F ≤ movesCost ms1 := by
      rcases chainK hInvF hflat ms1 sd1 tr1 hw1 with ⟨v, hv, _⟩ | ⟨F', h2, h3⟩
      · exact absurd he1 (hInvF.visSound sd1.1 sd1.2 v hv).1
      · rw [hsf] at h2
        cases h2
        exact h3
    have hFe : F = movesCost ms1 := le_antisymm hF2 hF1
    subst hFe
    rw [hsf] at hrF
    simp only [Option.map_some'] at hrF
    subst hrF
    refine ⟨fuel, stF, hrun, ?_, ht1, ht2⟩
    unfold Maze.find_all_best_paths
    rw [if_neg hg, hrun]

/-- C2 counterexample: the ragged two-line maze from the input ES over a
single dot has two distinct minimum-cost move sequences of cost 2001 to
its end cell (turn twice either way, then step left), yet
find_all_best_paths never returns at all on it: expanding the
cost-1000 Down state indexes the short second row and panics. -/
theorem C2_counterexample :
    Maze.from_str [['E', 'S'], ['.']]
      = some (Except.ok { grid := [[Tile.End, Tile.Start], [Tile.Empty]]
                          start := (0, 1)
                          «end» := (0, 0) }) ∧
    ([Move.cw, Move.cw, Move.fwd] ≠ [Move.ccw, Move.ccw, Move.fwd]) ∧
    Maze.walk { grid := [[Tile.End, Tile.Start], [Tile.Empty]], start := (0, 1), «end» := (0, 0) }
      [Move.cw, Move.cw, Move.fwd]
      = some ((((0, 0), Direction.Left) : SD), [(0, 1), (0, 0)]) ∧
    Maze.walk { grid := [[Tile.End, Tile.Start], [Tile.Empty]], start := (0, 1), «end» := (0, 0) }
      [Move.ccw, Move.ccw, Move.fwd]
      = some ((((0, 0), Direction.Left) : SD), [(0, 1), (0, 0)]) ∧
    movesCost [Move.cw, Move.cw, Move.fwd] = movesCost [Move.ccw, Move.ccw, Move.fwd] ∧
    (∀ ms sd tr,
      Maze.walk { grid := [[Tile.End, Tile.Start], [Tile.Empty]], start := (0, 1), «end» := (0, 0) } ms
        = some (sd, tr) → sd.1 = (0, 0) →
      movesCost [Move.cw, Move.cw, Move.fwd] ≤ movesCost ms) ∧
    ∀ r, ¬ Maze.Returns { grid := [[Tile.End, Tile.Start], [Tile.Empty]], start := (0, 1), «end» := (0, 0) } r := by
  refine ⟨by decide, by decide, by decide, by decide, by decide, ?_, ?_⟩
  · intro ms sd tr hw hend
    have htiles : ∀ r c t,
        Maze.tileAt { grid := [[Tile.End, Tile.Start], [Tile.Empty]], start := (0, 1), «end» := (0, 0) } r c = some t →
        Maze.tileAt { grid := [[Tile.End, Tile.Start], [Tile.Empty, Tile.Empty]], start := (0, 1), «end» := (0, 0) } r c = some t := by
      intro r c t h
      match r with
      | 0 => exact h
      | 1 =>
        match c with
        | 0 => exact h
        | c + 1 =>
          exfalso
          unfold Maze.tileAt at h
          simp at h
      | r + 2 =>
        exfalso
        unfold Maze.tileAt at h
        simp at h
    have hw' : Maze.walk { grid := [[Tile.End, Tile.Start], [Tile.Empty, Tile.Empty]], start := (0, 1), «end» := (0, 0) } ms
        = some (sd, tr) :=
      walkT_mono
        (show ({ grid := [[Tile.End, Tile.Start], [Tile.Empty]], start := (0, 1), «end» := (0, 0) } : Maze).rows
          = ({ grid := [[Tile.End, Tile.Start], [Tile.Empty, Tile.Empty]], start := (0, 1), «end» := (0, 0) } : Maze).rows from rfl)
        (show ({ grid := [[Tile.End, Tile.Start], [Tile.Empty]], start := (0, 1), «end» := (0, 0) } : Maze).cols
          = ({ grid := [[Tile.End, Tile.Start], [Tile.Empty, Tile.Empty]], start := (0, 1), «end» := (0, 0) } : Maze).cols from rfl)
        htiles ms ((0, 1), Direction.Right) [(0, 1)] (sd, tr) hw
    have hle := findSome_le_walk (by decide)
      (show Maze.find_all_best_paths
          { grid := [[Tile.End, Tile.Start], [Tile.Empty, Tile.Empty]], start := (0, 1), «end» := (0, 0) } 60
        = RunRes.done (some (2001, 2)) by decide) hw' hend
    have hcc : movesCost [Move.cw, Move.cw, Move.fwd] = 2001 := by decide
    omega
  · rintro r ⟨fuel, hf⟩
    unfold Maze.find_all_best_paths at hf
    rw [if_neg (by decide)] at hf
    cases hrl : Maze.runLoop { grid := [[Tile.End, Tile.Start], [Tile.Empty]], start := (0, 1), «end» := (0, 0) } fuel
        (Maze.initSt { grid := [[Tile.End, Tile.Start], [Tile.Empty]], start := (0, 1), «end» := (0, 0) }) with
    | panic => rw [hrl] at hf; simp at hf
    | out => rw [hrl] at hf; simp at hf
    | done r' stF' =>
      refine runLoop_stuck 2
        (Maze.initSt { grid := [[Tile.End, Tile.Start], [Tile.Empty]], start := (0, 1), «end» := (0, 0) })
        { visited := [[[none, none, none, none], [some 1000, none, none, some 0]],
                      [[none, none, none, none], [none, none, none, none]]]
          queue := [(1000, [{ cost := 1000, position := (0, 1), direction := Direction.Down, path := [(0, 1)] }]),
                    (2000, [{ cost := 2000, position := (0, 1), direction := Direction.Left, path := [(0, 1)] },
                            { cost := 2000, position := (0, 1), direction := Direction.Right, path := [(0, 1)] }])]
          path_tiles := []
          final_cost := none }
        (by decide) (by decide) fuel r' stF' hrl

/-- Witness for C2 on the rectangular two-by-two maze ES over two dots:
the two turn-twice-then-step sequences are distinct minimum-cost paths
of cost 2001, and the search returns that cost with both traces among
the recorded tiles. -/
theorem C2_witness :
    (({ grid := [[Tile.End, Tile.Start], [Tile.Empty, Tile.Empty]], start := (0, 1), «end» := (0, 0) } : Maze).grid ≠ [] ∧
     Maze.Rectangular { grid := [[Tile.End, Tile.Start], [Tile.Empty, Tile.Empty]], start := (0, 1), «end» := (0, 0) } ∧
     Maze.InBounds { grid := [[Tile.End, Tile.Start], [Tile.Empty, Tile.Empty]], start := (0, 1), «end» := (0, 0) } (0, 1) ∧
     ([Move.cw, Move.cw, Move.fwd] ≠ [Move.ccw, Move.ccw, Move.fwd]) ∧
     Maze.walk { grid := [[Tile.End, Tile.Start], [Tile.Empty, Tile.Empty]], start := (0, 1), «end» := (0, 0) }
       [Move.cw, Move.cw, Move.fwd]
       = some ((((0, 0), Direction.Left) : SD), [(0, 1), (0, 0)]) ∧
     Maze.walk { grid := [[Tile.End, Tile.Start], [Tile.Empty, Tile.Empty]], start := (0, 1), «end» := (0, 0) }
       [Move.ccw, Move.ccw, Move.fwd]
       = some ((((0, 0), Direction.Left) : SD), [(0, 1), (0, 0)]) ∧
     movesCost [Move.ccw, Move.ccw, Move.fwd] = movesCost [Move.cw, Move.cw, Move.fwd]) ∧
    (∃ fuel stF,
      Maze.runLoop { grid := [[Tile.End, Tile.Start], [Tile.Empty, Tile.Empty]], start := (0, 1), «end» := (0, 0) }
          fuel (Maze.initSt { grid := [[Tile.End, Tile.Start], [Tile.Empty, Tile.Empty]], start := (0, 1), «end» := (0, 0) })
        = RunOut.done (some (movesCost [Move.cw, Move.cw, Move.fwd], stF.path_tiles.length)) stF ∧
      Maze.find_all_best_paths { grid := [[Tile.End, Tile.Start], [Tile.Empty, Tile.Empty]], start := (0, 1), «end» := (0, 0) }
          fuel
        = RunRes.done (some (movesCost [Move.cw, Move.cw, Move.fwd], stF.path_tiles.length)) ∧
      (∀ x ∈ [((0, 1) : Pos), (0, 0)], x ∈ stF.path_tiles) ∧
      (∀ x ∈ [((0, 1) : Pos), (0, 0)], x ∈ stF.path_tiles)) := by
  have hmin : ∀ ms sd tr,
      Maze.walk { grid := [[Tile.End, Tile.Start], [Tile.Empty, Tile.Empty]], start := (0, 1), «end» := (0, 0) } ms
        = some (sd, tr) →
      sd.1 = ({ grid := [[Tile.End, Tile.Start], [Tile.Empty, Tile.Empty]], start := (0, 1), «end» := (0, 0) } : Maze).«end» →
      movesCost [Move.cw, Move.cw, Move.fwd] ≤ movesCost ms := by
    intro ms sd tr hw hend
    have hle := findSome_le_walk (by decide)
      (show Maze.find_all_best_paths
          { grid := [[Tile.End, Tile.Start], [Tile.Empty, Tile.Empty]], start := (0, 1), «end» := (0, 0) } 60
        = RunRes.done (some (2001, 2)) by decide) hw hend
    have hcc : movesCost [Move.cw, Move.cw, Move.fwd] = 2001 := by decide
    omega
  exact ⟨⟨by decide, by unfold Maze.Rectangular; decide, by unfold Maze.InBounds; decide,
      by decide, by decide, by decide, by decide⟩,
    C2_all_optimal_tiles
      { grid := [[Tile.End, Tile.Start], [Tile.Empty, Tile.Empty]], start := (0, 1), «end» := (0, 0) }
      (by decide) (by unfold Maze.Rectangular; decide) (by unfold Maze.InBounds; decide)
      [Move.cw, Move.cw, Move.fwd] [Move.ccw, Move.ccw, Move.fwd]
      (((0, 0), Direction.Left) : SD) (((0, 0), Direction.Left) : SD)
      [(0, 1), (0, 0)] [(0, 1), (0, 0)]
      (by decide) (by decide) (by decide) (by decide) (by decide) hmin⟩

set_option maxRecDepth 1000000 in
/-- C4: fixture correctness.  Parsing the 15-row example maze of the
day-16 tests and running the search returns minimum cost 7036 (with 45
tiles on optimal paths), and the 17-row example returns minimum cost
11048 (with 64 tiles). -/
theorem C4_fixtures :
    parseAndSolve ex1lines 2600 = some (Except.ok (RunRes.done (some (7036, 45)))) ∧
    parseAndSolve ex2lines 3000 = some (Except.ok (RunRes.done (some (11048, 64)))) := by
  constructor <;> decide

end Day16

end Aoc
